import Mathlib

/-!
Verification of the scrypt password key-derivation and encrypted-container
subsystem bundled in this repository (the `scrypt` node module sources:
`lib/scryptenc/scryptenc.c`, `src/scryptwrapper/keyderivation.c`,
`src/scryptwrapper/pickparams.c`, `src/util/memlimit.c`, `scrypt/win/memlimit.c`,
`src/node-boilerplate/scrypt_kdf-verify_sync.cc`).

Modelling conventions:
* Bytes are natural numbers (values < 256 in well-formed data); buffers are
  `List ℕ`.
* C `double` values are modelled exactly as unnormalised integer fractions
  (`Dbl` below).  Every arithmetic operation the source performs on doubles
  (products, divisions by integers, comparisons, truncating casts) is exact
  rational arithmetic here; for the concrete inputs appearing in the claims
  the IEEE-754 rounding of the source changes no comparison or truncation
  outcome.
* The cryptographic primitives (SHA-256, HMAC-SHA256, the scrypt mixing
  function `crypto_scrypt`/`ScryptHashFunction`, and the AES-CTR keystream)
  are external to the specified core and are abstracted as arbitrary
  deterministic functions, collected in the `Prims` structure.  AES-CTR
  encryption/decryption is XOR with the keystream produced from the key and
  the running byte offset, exactly as counter mode behaves.
* Machine integers are ℕ with explicit `% 2 ^ 64` where a 64-bit shift can
  wrap; `size_t` values are unbounded ℕ (no computation here overflows for
  realistic sizes, and the claims do not concern `size_t` wraparound).
* Heap-allocation failures of the C code (`crypto_aes_key_expand`,
  `crypto_aesctr_init` returning NULL, `crypto_scrypt` failing with ENOMEM)
  are environment conditions outside the functional model: the model treats
  those calls as succeeding.  Output-file write errors and input read errors
  of the streaming variants are likewise not modelled; the streaming input
  is an arbitrary division of the stream into successful read chunks.
-/

namespace Scrypt

/-- Exact model of a C `double` value: an unnormalised fraction `num / den`.
All constructions used below keep `den` positive.  Kept unnormalised so that
every operation kernel-reduces (ℚ normalisation via gcd does not). -/
structure Dbl where
  num : ℤ
  den : ℤ
deriving DecidableEq

/-- Embed a natural number (e.g. a `size_t` converted to `double`). -/
def Dbl.ofNat (n : ℕ) : Dbl := ⟨n, 1⟩

/-- Comparison `a < b` of two double values (cross-multiplication; valid
because all denominators are positive). -/
def Dbl.blt (a b : Dbl) : Bool := decide (a.num * b.den < b.num * a.den)

/-- Division of a double by a (positive) integer, `a / n`. -/
def Dbl.divNat (a : Dbl) (n : ℕ) : Dbl := ⟨a.num, a.den * n⟩

/-- The C cast of a nonnegative double to an unsigned integer: truncation
toward zero.  (A negative value would be undefined behaviour in C; the model
returns 0 there, and no flow below reaches that case.) -/
def Dbl.trunc (a : Dbl) : ℕ := a.num.toNat / a.den.toNat

/-- Interpretation of a `Dbl` as a rational number. -/
def Dbl.toRat (a : Dbl) : ℚ := (a.num : ℚ) / (a.den : ℚ)

theorem Dbl.toRat_ofNat (n : ℕ) : (Dbl.ofNat n).toRat = n := by
  simp [Dbl.toRat, Dbl.ofNat]

theorem Dbl.blt_iff {a b : Dbl} (ha : 0 < a.den) (hb : 0 < b.den) :
    a.blt b = true ↔ a.toRat < b.toRat := by
  have ha' : (0 : ℚ) < (a.den : ℚ) := by exact_mod_cast ha
  have hb' : (0 : ℚ) < (b.den : ℚ) := by exact_mod_cast hb
  rw [Dbl.blt, decide_eq_true_eq, Dbl.toRat, Dbl.toRat, div_lt_div_iff₀ ha' hb']
  constructor
  · intro h
    exact_mod_cast h
  · intro h
    exact_mod_cast h

theorem Dbl.toRat_divNat {a : Dbl} (ha : 0 < a.den) {n : ℕ} (hn : 0 < n) :
    (a.divNat n).toRat = a.toRat / n := by
  have ha' : ((a.den : ℚ)) ≠ 0 := by positivity
  have hn' : ((n : ℚ)) ≠ 0 := by positivity
  simp only [Dbl.toRat, Dbl.divNat]
  push_cast
  field_simp

theorem Dbl.den_divNat_pos {a : Dbl} (ha : 0 < a.den) {n : ℕ} (hn : 0 < n) :
    0 < (a.divNat n).den := by
  simp only [Dbl.divNat]
  positivity

/-- If `m ≤ a` as rationals (with `a` wellformed) then `m ≤ trunc a`. -/
theorem Dbl.le_trunc {a : Dbl} (ha : 0 < a.den) {m : ℕ}
    (h : (m : ℚ) ≤ a.toRat) : m ≤ a.trunc := by
  have hden' : (0 : ℚ) < (a.den : ℚ) := by exact_mod_cast ha
  rw [Dbl.toRat, le_div_iff₀ hden'] at h
  have hnum : (m : ℤ) * a.den ≤ a.num := by exact_mod_cast h
  have hd : ((a.den.toNat : ℤ)) = a.den := Int.toNat_of_nonneg (le_of_lt ha)
  have key : ((m * a.den.toNat : ℕ) : ℤ) ≤ a.num := by
    push_cast [hd]
    exact hnum
  have hm : m * a.den.toNat ≤ a.num.toNat := by
    have h5 := Int.toNat_le_toNat key
    rwa [Int.toNat_natCast] at h5
  exact (Nat.le_div_iff_mul_le (by omega)).mpr hm

/-- If `a ≤ m` as rationals (with `a` wellformed) then `trunc a ≤ m`. -/
theorem Dbl.trunc_le {a : Dbl} (ha : 0 < a.den) {m : ℕ}
    (h : a.toRat ≤ (m : ℚ)) : a.trunc ≤ m := by
  have hden' : (0 : ℚ) < (a.den : ℚ) := by exact_mod_cast ha
  rw [Dbl.toRat, div_le_iff₀ hden'] at h
  have hnum : a.num ≤ (m : ℤ) * a.den := by exact_mod_cast h
  have hd : ((a.den.toNat : ℤ)) = a.den := Int.toNat_of_nonneg (le_of_lt ha)
  have key : a.num ≤ ((m * a.den.toNat : ℕ) : ℤ) := by
    push_cast [hd]
    exact hnum
  have h2 : a.num.toNat ≤ m * a.den.toNat := by
    have h5 := Int.toNat_le_toNat key
    rwa [Int.toNat_natCast] at h5
  have h3 : a.num.toNat / a.den.toNat ≤ m * a.den.toNat / a.den.toNat :=
    Nat.div_le_div_right h2
  rwa [Nat.mul_div_cancel _ (by omega)] at h3

/-- The truncation satisfies `(a.trunc : ℚ) ≤ a.toRat` when `a` is
nonnegative. -/
theorem Dbl.trunc_cast_le {a : Dbl} (ha : 0 < a.den) (hnn : 0 ≤ a.num) :
    (a.trunc : ℚ) ≤ a.toRat := by
  have hden' : (0 : ℚ) < (a.den : ℚ) := by exact_mod_cast ha
  rw [Dbl.toRat, le_div_iff₀ hden']
  have h1 : a.trunc * a.den.toNat ≤ a.num.toNat :=
    Nat.div_mul_le_self _ _
  have h2 : (a.trunc : ℤ) * a.den ≤ a.num := by
    have h3 : ((a.trunc * a.den.toNat : ℕ) : ℤ) ≤ ((a.num.toNat : ℕ) : ℤ) :=
      Int.ofNat_le.mpr h1
    push_cast [Int.toNat_of_nonneg (le_of_lt ha), Int.toNat_of_nonneg hnn] at h3
    exact h3
  exact_mod_cast h2

/-- Equality test of two double values (cross-multiplication). -/
def Dbl.beq (a b : Dbl) : Bool := decide (a.num * b.den = b.num * a.den)

/-- Multiplication of a double by a natural number (`frac * (double)total`). -/
def Dbl.mulNat (a : Dbl) (n : ℕ) : Dbl := ⟨a.num * n, a.den⟩

/-- The double literal `0.5`. -/
def Dbl.half : Dbl := ⟨1, 2⟩

/-!
Memory Limiter.  Two implementations exist in the tree.

`memtouse` embeds `src/util/memlimit.c` (the `contracts` scrypt module): the
platform memory signal is supplied by the caller as `memlimit_min`, and the
usable amount is `(size_t)(maxmemfrac * (double)memlimit_min)`.

`memtouse_win` embeds the final computation of `scrypt/win/memlimit.c`
(lines 210-281); there the platform signals are queried internally and
`memlimit_min` below stands for their minimum.  Note its line 263 reads
`memavail = (size_t)maxmemfrac * memlimit_min;` — the cast binds to the
fraction alone, truncating it to an integer before the multiplication.
-/

/-- Embedding of `memtouse` from `src/util/memlimit.c` (always succeeds;
the C function unconditionally returns 0). -/
def memtouse (maxmem : ℕ) (maxmemfrac : Dbl) (memlimit_min : ℕ) : ℕ :=
  let frac := if Dbl.half.blt maxmemfrac || maxmemfrac.beq (Dbl.ofNat 0)
    then Dbl.half else maxmemfrac
  let memavail := (frac.mulNat memlimit_min).trunc
  let memavail := if maxmem > 0 && decide (memavail > maxmem)
    then maxmem else memavail
  if memavail < 1048576 then 1048576 else memavail

/-- Embedding of `memtouse` from `scrypt/win/memlimit.c`, lines 259-280,
including the misplaced cast on line 263 (`(size_t)maxmemfrac *
memlimit_min`). -/
def memtouse_win (maxmem : ℕ) (maxmemfrac : Dbl) (memlimit_min : ℕ) : ℕ :=
  let frac := if Dbl.half.blt maxmemfrac || maxmemfrac.beq (Dbl.ofNat 0)
    then Dbl.half else maxmemfrac
  let memavail := frac.trunc * memlimit_min
  let memavail := if maxmem > 0 && decide (memavail > maxmem)
    then maxmem else memavail
  if memavail < 1048576 then 1048576 else memavail

/-!
Parameter Selector (`pickparams`/`checkparams` of
`lib/scryptenc/scryptenc.c`; `src/scryptwrapper/pickparams.c` is the same
computation).  The two host-environment inputs — the memory budget that
`memtouse` produced and the product `opps * maxtime` that
`scryptenc_cpuperf` feeds into `opslimit` — are passed in explicitly
(`memlimit` and `opslimit0`).
-/

/-- The `for (*logN = 1; *logN < 63; *logN += 1)` search loop shared by both
branches of `pickparams`: starting from `logN`, runs `fuel` more iterations,
stopping at the first `logN` with `(uint64_t)1 << logN > maxN / 2`. -/
def pickLogNAux (maxN : Dbl) : ℕ → ℕ → ℕ
  | 0, logN => logN
  | fuel + 1, logN =>
    if (maxN.divNat 2).blt (Dbl.ofNat (2 ^ logN)) then logN
    else pickLogNAux maxN fuel (logN + 1)

/-- The loop entered at `logN = 1` with 62 conditional steps, leaving the
loop at `logN = 63` if the break never fires (the source loop condition
`*logN < 63`). -/
def pickLogN (maxN : Dbl) : ℕ := pickLogNAux maxN 62 1

/-- The scrypt cost-parameter triple `(logN, r, p)`. -/
structure Params where
  logN : ℕ
  r : ℕ
  p : ℕ
deriving DecidableEq

/-- The branch phase of `pickparams`, after `opslimit` has received its
32768 floor: `r = 8`, then either the CPU limit or the memory limit
dominates (`lib/scryptenc/scryptenc.c` lines 80-113). -/
def pickparams_post (memlimit : ℕ) (opslimit : Dbl) : Params :=
  let r : ℕ := 8
  if opslimit.blt (Dbl.ofNat (memlimit / 32)) then
    let maxN := opslimit.divNat (r * 4)
    ⟨pickLogN maxN, r, 1⟩
  else
    let maxN := Dbl.ofNat (memlimit / (r * 128))
    let logN := pickLogN maxN
    let maxrp0 := (opslimit.divNat 4).divNat (2 ^ logN)
    let maxrp := if (Dbl.ofNat 0x3fffffff).blt maxrp0
      then Dbl.ofNat 0x3fffffff else maxrp0
    ⟨logN, r, maxrp.trunc / r⟩

/-- Embedding of `pickparams` (`lib/scryptenc/scryptenc.c` lines 57-122)
as a function of the memory budget and the raw ops budget
`opps * maxtime`: the 32768 floor on `opslimit`, then the branch phase. -/
def pickparams (memlimit : ℕ) (opslimit0 : Dbl) : Params :=
  pickparams_post memlimit
    (if opslimit0.blt (Dbl.ofNat 32768) then Dbl.ofNat 32768 else opslimit0)

/-- Embedding of `checkparams` (`lib/scryptenc/scryptenc.c` lines 124-158)
as a function of the same two host-environment inputs.  Note the source
applies no 32768 floor to `opslimit` here (unlike `pickparams`). -/
def checkparams (memlimit : ℕ) (opslimit : Dbl) (logN r p : ℕ) : ℕ :=
  if logN < 1 ∨ logN > 63 then 7
  else if 0x40000000 ≤ r * p then 7
  else if memlimit / 2 ^ logN / r < 128 then 9
  else if ((opslimit.divNat (2 ^ logN)).divNat (r * p)).blt (Dbl.ofNat 4)
    then 10
  else 0

theorem Dbl.trunc_ofNat (n : ℕ) : (Dbl.ofNat n).trunc = n := by
  simp [Dbl.trunc, Dbl.ofNat]

theorem pickLogNAux_ge (maxN : Dbl) (fuel l : ℕ) :
    l ≤ pickLogNAux maxN fuel l := by
  induction fuel generalizing l with
  | zero => simp [pickLogNAux]
  | succ n ih =>
    simp only [pickLogNAux]
    split
    · exact le_refl l
    · exact le_trans (Nat.le_succ l) (ih (l + 1))

theorem pickLogNAux_le (maxN : Dbl) (fuel l : ℕ) :
    pickLogNAux maxN fuel l ≤ l + fuel := by
  induction fuel generalizing l with
  | zero => simp [pickLogNAux]
  | succ n ih =>
    simp only [pickLogNAux]
    split
    · omega
    · have := ih (l + 1)
      omega

/-- Loop invariant: if at entry `2 ^ logN` is at most `maxN`, the exit value
keeps that bound (when the break fires, the entry bound is the exit bound;
when it does not, `2 ^ logN ≤ maxN / 2` carries the bound one step up). -/
theorem pickLogNAux_pow_le (maxN : Dbl) (hden : 0 < maxN.den) (fuel l : ℕ)
    (h : ((2 ^ l : ℕ) : ℚ) ≤ maxN.toRat) :
    ((2 ^ pickLogNAux maxN fuel l : ℕ) : ℚ) ≤ maxN.toRat := by
  induction fuel generalizing l with
  | zero => simpa [pickLogNAux] using h
  | succ n ih =>
    simp only [pickLogNAux]
    split
    · exact h
    · rename_i hb
      apply ih
      have hiff := Dbl.blt_iff (a := maxN.divNat 2) (b := Dbl.ofNat (2 ^ l))
        (Dbl.den_divNat_pos hden (by norm_num)) (by simp [Dbl.ofNat])
      rw [Bool.not_eq_true] at hb
      rw [hb] at hiff
      have hnl : ¬ (maxN.divNat 2).toRat < (Dbl.ofNat (2 ^ l)).toRat := by
        intro hc
        exact absurd (hiff.mpr hc) (by simp)
      rw [not_lt, Dbl.toRat_ofNat, Dbl.toRat_divNat hden (by norm_num)] at hnl
      have : ((2 ^ l : ℕ) : ℚ) * 2 ≤ maxN.toRat := by
        have h22 : ((2 : ℕ) : ℚ) = 2 := by norm_num
        rw [h22, le_div_iff₀ (by norm_num : (0:ℚ) < 2)] at hnl
        exact hnl
      calc ((2 ^ (l + 1) : ℕ) : ℚ) = ((2 ^ l : ℕ) : ℚ) * 2 := by
            push_cast [pow_succ]
            ring
        _ ≤ maxN.toRat := this

theorem pickLogN_ge_one (maxN : Dbl) : 1 ≤ pickLogN maxN :=
  pickLogNAux_ge maxN 62 1

theorem pickLogN_le (maxN : Dbl) : pickLogN maxN ≤ 63 :=
  pickLogNAux_le maxN 62 1

theorem pickLogN_pow_le (maxN : Dbl) (hden : 0 < maxN.den)
    (h2 : (2 : ℚ) ≤ maxN.toRat) :
    ((2 ^ pickLogN maxN : ℕ) : ℚ) ≤ maxN.toRat := by
  apply pickLogNAux_pow_le maxN hden 62 1
  simpa using h2

/-- Core facts about the branch phase of `pickparams`, for any floored
`opslimit ≥ 32768` and any memory budget of at least 1 MiB (`memtouse`
never produces less): `r = 8`, `logN ∈ [1, 63]`, `p ≥ 1`,
`r * p ≤ 0x3fffffff`, the memory bound `128 * N * r ≤ memlimit`, and the
CPU bound `4 * N * r * p ≤ opslimit`. -/
theorem pickparams_post_props (memlimit : ℕ) (F : Dbl)
    (hden : 0 < F.den) (hF : (32768 : ℚ) ≤ F.toRat)
    (hmem : 2 ^ 20 ≤ memlimit) :
    (pickparams_post memlimit F).r = 8 ∧
    1 ≤ (pickparams_post memlimit F).logN ∧
    (pickparams_post memlimit F).logN ≤ 63 ∧
    1 ≤ (pickparams_post memlimit F).p ∧
    8 * (pickparams_post memlimit F).p ≤ 0x3fffffff ∧
    1024 * 2 ^ (pickparams_post memlimit F).logN ≤ memlimit ∧
    ((32 * 2 ^ (pickparams_post memlimit F).logN *
      (pickparams_post memlimit F).p : ℕ) : ℚ) ≤ F.toRat := by
  have hFpos : (0 : ℚ) < F.toRat := lt_of_lt_of_le (by norm_num) hF
  have hFnum : 0 < F.num := by
    rw [Dbl.toRat, div_pos_iff] at hFpos
    rcases hFpos with ⟨h1, _⟩ | ⟨_, h2⟩
    · exact_mod_cast h1
    · exfalso
      have : (0 : ℚ) < (F.den : ℚ) := by exact_mod_cast hden
      linarith
  cases hg : F.blt (Dbl.ofNat (memlimit / 32)) with
  | true =>
    have hP : pickparams_post memlimit F = ⟨pickLogN (F.divNat 32), 8, 1⟩ := by
      simp [pickparams_post, hg]
    rw [hP]
    have hdd : 0 < (F.divNat 32).den := Dbl.den_divNat_pos hden (by norm_num)
    have hmaxN : (F.divNat 32).toRat = F.toRat / 32 :=
      Dbl.toRat_divNat hden (by norm_num)
    have hpow : ((2 ^ pickLogN (F.divNat 32) : ℕ) : ℚ) * 32 ≤ F.toRat := by
      rw [← le_div_iff₀ (by norm_num : (0:ℚ) < 32), ← hmaxN]
      apply pickLogN_pow_le _ hdd
      rw [hmaxN, le_div_iff₀ (by norm_num : (0:ℚ) < 32)]
      linarith
    have hglt : F.toRat < ((memlimit / 32 : ℕ) : ℚ) := by
      have hiff := Dbl.blt_iff (a := F) (b := Dbl.ofNat (memlimit / 32)) hden
        (by simp [Dbl.ofNat])
      rw [hg] at hiff
      have := hiff.mp rfl
      rwa [Dbl.toRat_ofNat] at this
    have hmemq : ((memlimit / 32 : ℕ) : ℚ) * 32 ≤ (memlimit : ℚ) := by
      rw [← le_div_iff₀ (by norm_num : (0:ℚ) < 32)]
      exact Nat.cast_div_le
    have hmemN : 1024 * 2 ^ pickLogN (F.divNat 32) ≤ memlimit := by
      have hq : ((2 ^ pickLogN (F.divNat 32) : ℕ) : ℚ) * 1024 < (memlimit : ℚ) := by
        linarith
      have hq' : ((1024 * 2 ^ pickLogN (F.divNat 32) : ℕ) : ℚ) < (memlimit : ℚ) := by
        push_cast at hq ⊢
        linarith
      exact le_of_lt (by exact_mod_cast hq')
    refine ⟨rfl, pickLogN_ge_one _, pickLogN_le _, le_refl 1, by norm_num,
      hmemN, ?_⟩
    push_cast at hpow ⊢
    linarith
  | false =>
    have hP : pickparams_post memlimit F =
        ⟨pickLogN (Dbl.ofNat (memlimit / 1024)), 8,
         (if (Dbl.ofNat 0x3fffffff).blt
              ((F.divNat 4).divNat (2 ^ pickLogN (Dbl.ofNat (memlimit / 1024))))
          then Dbl.ofNat 0x3fffffff
          else (F.divNat 4).divNat
            (2 ^ pickLogN (Dbl.ofNat (memlimit / 1024)))).trunc / 8⟩ := by
      simp [pickparams_post, hg]
    rw [hP]
    have hge : ((memlimit / 32 : ℕ) : ℚ) ≤ F.toRat := by
      have hiff := Dbl.blt_iff (a := F) (b := Dbl.ofNat (memlimit / 32)) hden
        (by simp [Dbl.ofNat])
      rw [hg] at hiff
      have hn : ¬ F.toRat < (Dbl.ofNat (memlimit / 32)).toRat := by
        intro hc
        exact absurd (hiff.mpr hc) (by simp)
      rw [Dbl.toRat_ofNat] at hn
      linarith [not_lt.mp hn]
    have hpow : ((2 ^ pickLogN (Dbl.ofNat (memlimit / 1024)) : ℕ) : ℚ) ≤
        ((memlimit / 1024 : ℕ) : ℚ) := by
      have := pickLogN_pow_le (Dbl.ofNat (memlimit / 1024))
        (by simp [Dbl.ofNat]) ?_
      · rwa [Dbl.toRat_ofNat] at this
      · rw [Dbl.toRat_ofNat]
        have h1 : (1024 : ℕ) ≤ memlimit / 1024 := by omega
        exact_mod_cast le_trans (by norm_num) (Nat.cast_le.mpr h1)
    have hN : 2 ^ pickLogN (Dbl.ofNat (memlimit / 1024)) ≤ memlimit / 1024 :=
      Nat.cast_le.mp hpow
    have hmemN : 1024 * 2 ^ pickLogN (Dbl.ofNat (memlimit / 1024)) ≤ memlimit := by
      omega
    have h32N : 32 * 2 ^ pickLogN (Dbl.ofNat (memlimit / 1024)) ≤ memlimit / 32 := by
      omega
    have hrawB : ((32 * 2 ^ pickLogN (Dbl.ofNat (memlimit / 1024)) : ℕ) : ℚ) ≤
        F.toRat :=
      le_trans (Nat.cast_le.mpr h32N) hge
    have hNpos : (0 : ℚ) < ((2 ^ pickLogN (Dbl.ofNat (memlimit / 1024)) : ℕ) : ℚ) := by
      exact_mod_cast Nat.pos_pow_of_pos _ (by norm_num)
    have hden0 : 0 < ((F.divNat 4).divNat
        (2 ^ pickLogN (Dbl.ofNat (memlimit / 1024)))).den :=
      Dbl.den_divNat_pos (Dbl.den_divNat_pos hden (by norm_num))
        (Nat.pos_pow_of_pos _ (by norm_num))
    have hrp0 : ((F.divNat 4).divNat
        (2 ^ pickLogN (Dbl.ofNat (memlimit / 1024)))).toRat =
        F.toRat / 4 / ((2 ^ pickLogN (Dbl.ofNat (memlimit / 1024)) : ℕ) : ℚ) := by
      rw [Dbl.toRat_divNat (Dbl.den_divNat_pos hden (by norm_num))
        (Nat.pos_pow_of_pos _ (by norm_num)),
        Dbl.toRat_divNat hden (by norm_num)]
      norm_num
    have h8 : (8 : ℚ) ≤ ((F.divNat 4).divNat
        (2 ^ pickLogN (Dbl.ofNat (memlimit / 1024)))).toRat := by
      rw [hrp0, le_div_iff₀ hNpos, le_div_iff₀ (by norm_num : (0:ℚ) < 4)]
      push_cast at hrawB ⊢
      linarith
    have hrp0num : 0 < ((F.divNat 4).divNat
        (2 ^ pickLogN (Dbl.ofNat (memlimit / 1024)))).num := by
      simpa [Dbl.divNat] using hFnum
    cases hc : (Dbl.ofNat 0x3fffffff).blt
        ((F.divNat 4).divNat (2 ^ pickLogN (Dbl.ofNat (memlimit / 1024)))) with
    | true =>
      simp only [eq_self_iff_true, if_true]
      have hlt : ((0x3fffffff : ℕ) : ℚ) < ((F.divNat 4).divNat
          (2 ^ pickLogN (Dbl.ofNat (memlimit / 1024)))).toRat := by
        have hiff := Dbl.blt_iff (a := Dbl.ofNat 0x3fffffff)
          (b := (F.divNat 4).divNat
            (2 ^ pickLogN (Dbl.ofNat (memlimit / 1024))))
          (by simp [Dbl.ofNat]) hden0
        rw [hc] at hiff
        have := hiff.mp rfl
        rwa [Dbl.toRat_ofNat] at this
      rw [Dbl.trunc_ofNat]
      refine ⟨trivial, pickLogN_ge_one _, pickLogN_le _, by norm_num, by norm_num,
        hmemN, ?_⟩
      rw [hrp0, lt_div_iff₀ hNpos, lt_div_iff₀ (by norm_num : (0:ℚ) < 4)] at hlt
      push_cast at hlt ⊢
      nlinarith [hlt]
    | false =>
      simp only [Bool.false_eq_true, if_false]
      have hle : ((F.divNat 4).divNat
          (2 ^ pickLogN (Dbl.ofNat (memlimit / 1024)))).toRat ≤
          ((0x3fffffff : ℕ) : ℚ) := by
        have hiff := Dbl.blt_iff (a := Dbl.ofNat 0x3fffffff)
          (b := (F.divNat 4).divNat
            (2 ^ pickLogN (Dbl.ofNat (memlimit / 1024))))
          (by simp [Dbl.ofNat]) hden0
        rw [hc] at hiff
        have hn : ¬ (Dbl.ofNat 0x3fffffff).toRat < ((F.divNat 4).divNat
            (2 ^ pickLogN (Dbl.ofNat (memlimit / 1024)))).toRat := by
          intro hcontra
          exact absurd (hiff.mpr hcontra) (by simp)
        rw [Dbl.toRat_ofNat] at hn
        linarith [not_lt.mp hn]
      have htle : ((F.divNat 4).divNat
          (2 ^ pickLogN (Dbl.ofNat (memlimit / 1024)))).trunc ≤ 0x3fffffff :=
        Dbl.trunc_le hden0 hle
      have ht8 : 8 ≤ ((F.divNat 4).divNat
          (2 ^ pickLogN (Dbl.ofNat (memlimit / 1024)))).trunc :=
        Dbl.le_trunc hden0 (by exact_mod_cast h8)
      have htq : ((((F.divNat 4).divNat
          (2 ^ pickLogN (Dbl.ofNat (memlimit / 1024)))).trunc : ℕ) : ℚ) ≤
          ((F.divNat 4).divNat
            (2 ^ pickLogN (Dbl.ofNat (memlimit / 1024)))).toRat :=
        Dbl.trunc_cast_le hden0 (le_of_lt hrp0num)
      refine ⟨trivial, pickLogN_ge_one _, pickLogN_le _, by omega, by omega,
        hmemN, ?_⟩
      rw [hrp0] at htq
      have hp8 : (8 * (((F.divNat 4).divNat
          (2 ^ pickLogN (Dbl.ofNat (memlimit / 1024)))).trunc / 8) : ℕ) ≤
          ((F.divNat 4).divNat
            (2 ^ pickLogN (Dbl.ofNat (memlimit / 1024)))).trunc := by
        omega
      have hp8q : ((8 * (((F.divNat 4).divNat
          (2 ^ pickLogN (Dbl.ofNat (memlimit / 1024)))).trunc / 8) : ℕ) : ℚ) ≤
          F.toRat / 4 / ((2 ^ pickLogN (Dbl.ofNat (memlimit / 1024)) : ℕ) : ℚ) :=
        le_trans (Nat.cast_le.mpr hp8) htq
      rw [le_div_iff₀ hNpos, le_div_iff₀ (by norm_num : (0:ℚ) < 4)] at hp8q
      push_cast at hp8q ⊢
      nlinarith [hp8q]

/-- The output of `pickparams` passes `checkparams` against the same memory
budget and the same raw ops budget, provided the raw ops budget is at least
32768 (so that the floor `pickparams` applies — and `checkparams` does not —
changes nothing) and the memory budget is at least the 1 MiB `memtouse`
floor. -/
theorem pickparams_passes_checkparams (memlimit : ℕ) (raw : Dbl)
    (hden : 0 < raw.den) (hmem : 2 ^ 20 ≤ memlimit)
    (hops : raw.blt (Dbl.ofNat 32768) = false) :
    checkparams memlimit raw (pickparams memlimit raw).logN
      (pickparams memlimit raw).r (pickparams memlimit raw).p = 0 := by
  have hflo : (32768 : ℚ) ≤ raw.toRat := by
    have hiff := Dbl.blt_iff (a := raw) (b := Dbl.ofNat 32768) hden
      (by simp [Dbl.ofNat])
    rw [hops] at hiff
    have hn : ¬ raw.toRat < (Dbl.ofNat 32768).toRat := by
      intro hc
      exact absurd (hiff.mpr hc) (by simp)
    rw [Dbl.toRat_ofNat] at hn
    have := not_lt.mp hn
    calc (32768 : ℚ) = ((32768 : ℕ) : ℚ) := by norm_num
      _ ≤ raw.toRat := this
  have hPeq : pickparams memlimit raw = pickparams_post memlimit raw := by
    simp [pickparams, hops]
  obtain ⟨hr, h1, h63, hp1, hrp, hmemc, hcpu⟩ :=
    pickparams_post_props memlimit raw hden hflo hmem
  rw [hPeq]
  rw [hPeq] at *
  unfold checkparams
  rw [hr]
  rw [if_neg (by omega)]
  rw [if_neg (by omega)]
  have hNpos : 0 < 2 ^ (pickparams_post memlimit raw).logN :=
    Nat.pos_pow_of_pos _ (by norm_num)
  have hmemok : ¬ (memlimit / 2 ^ (pickparams_post memlimit raw).logN / 8
      < 128) := by
    rw [not_lt]
    have h1024 : 1024 ≤ memlimit / 2 ^ (pickparams_post memlimit raw).logN :=
      (Nat.le_div_iff_mul_le hNpos).mpr (by omega)
    exact (Nat.le_div_iff_mul_le (by norm_num)).mpr (by omega)
  rw [if_neg hmemok]
  have hcpuok : ¬ (((raw.divNat
      (2 ^ (pickparams_post memlimit raw).logN)).divNat
      (8 * (pickparams_post memlimit raw).p)).blt (Dbl.ofNat 4) = true) := by
    intro hc
    have hdd : 0 < ((raw.divNat
        (2 ^ (pickparams_post memlimit raw).logN)).divNat
        (8 * (pickparams_post memlimit raw).p)).den :=
      Dbl.den_divNat_pos (Dbl.den_divNat_pos hden hNpos) (by omega)
    have hiff := Dbl.blt_iff (a := (raw.divNat
        (2 ^ (pickparams_post memlimit raw).logN)).divNat
        (8 * (pickparams_post memlimit raw).p)) (b := Dbl.ofNat 4)
      hdd (by simp [Dbl.ofNat])
    have hlt := hiff.mp hc
    rw [Dbl.toRat_ofNat, Dbl.toRat_divNat (Dbl.den_divNat_pos hden hNpos)
      (by omega), Dbl.toRat_divNat hden hNpos] at hlt
    have hNq : (0 : ℚ) < ((2 ^ (pickparams_post memlimit raw).logN : ℕ) : ℚ) := by
      exact_mod_cast hNpos
    have hpq : (0 : ℚ) < ((8 * (pickparams_post memlimit raw).p : ℕ) : ℚ) := by
      have : 0 < 8 * (pickparams_post memlimit raw).p := by omega
      exact_mod_cast this
    rw [div_lt_iff₀ hpq, div_lt_iff₀ hNq] at hlt
    have hcpu' := hcpu
    push_cast at hlt hcpu'
    nlinarith [hlt, hcpu']
  rw [if_neg hcpuok]

/-- Shape facts about `pickparams` output needed by the record build/parse
path: `r = 8`, `logN ∈ [1, 63]`, `p ∈ [1, 0x3fffffff/8]`. -/
theorem pickparams_props (memlimit : ℕ) (raw : Dbl) (hden : 0 < raw.den)
    (hmem : 2 ^ 20 ≤ memlimit) :
    (pickparams memlimit raw).r = 8 ∧ 1 ≤ (pickparams memlimit raw).logN ∧
    (pickparams memlimit raw).logN ≤ 63 ∧ 1 ≤ (pickparams memlimit raw).p ∧
    8 * (pickparams memlimit raw).p ≤ 0x3fffffff := by
  cases hops : raw.blt (Dbl.ofNat 32768) with
  | true =>
    have hPeq : pickparams memlimit raw =
        pickparams_post memlimit (Dbl.ofNat 32768) := by
      simp [pickparams, hops]
    obtain ⟨h1, h2, h3, h4, h5, _, _⟩ :=
      pickparams_post_props memlimit (Dbl.ofNat 32768) (by simp [Dbl.ofNat])
        (by rw [Dbl.toRat_ofNat]; norm_num) hmem
    rw [hPeq]
    exact ⟨h1, h2, h3, h4, h5⟩
  | false =>
    have hflo : (32768 : ℚ) ≤ raw.toRat := by
      have hiff := Dbl.blt_iff (a := raw) (b := Dbl.ofNat 32768) hden
        (by simp [Dbl.ofNat])
      rw [hops] at hiff
      have hn : ¬ raw.toRat < (Dbl.ofNat 32768).toRat := by
        intro hc
        exact absurd (hiff.mpr hc) (by simp)
      rw [Dbl.toRat_ofNat] at hn
      have := not_lt.mp hn
      calc (32768 : ℚ) = ((32768 : ℕ) : ℚ) := by norm_num
        _ ≤ raw.toRat := this
    have hPeq : pickparams memlimit raw = pickparams_post memlimit raw := by
      simp [pickparams, hops]
    obtain ⟨h1, h2, h3, h4, h5, _, _⟩ :=
      pickparams_post_props memlimit raw hden hflo hmem
    rw [hPeq]
    exact ⟨h1, h2, h3, h4, h5⟩

/-- C3: the spec scenario at memory budget 1048576, opsPerSecond 1000000 and
maxTimeSeconds 0.1 claims the compute-bound branch fires and the result is
`logN = 11, p = 1`.  In fact `opslimit = 100000` is not less than
`memlimit / 32 = 32768`, so the memory-bound branch fires and the result is
`logN = 10, r = 8, p = 3`. -/
theorem C3_pickparams_scenario_counterexample :
    ¬ ((pickparams 1048576 ⟨1000000, 10⟩).logN = 11 ∧
       (pickparams 1048576 ⟨1000000, 10⟩).p = 1) := by decide

/-- C3 (amended): at memory budget 1048576 and ops product 1000000 · (1/10),
the branch guard `opslimit < memlimit / 32` is false (100000 is not below
32768), so `pickparams` takes the memory-bound branch and returns
`logN = 10` (N = 1024, the largest power of two with `128 · N · 8 ≤
1048576`), `r = 8`, and `p = trunc(25000 / 1024) / 8 = 3`. -/
theorem C3_pickparams_scenario :
    pickparams 1048576 ⟨1000000, 10⟩ = ⟨10, 8, 3⟩ ∧
    (Dbl.mk 1000000 10).blt (Dbl.ofNat (1048576 / 32)) = false := by decide

/-- C4 counterexample: with memory budget 2 MiB and a raw ops budget of
20000 (below the 32768 floor that only `pickparams` applies), the triple
`pickparams` returns fails `checkparams` on the CPU-limit check with
code 10, because `checkparams` compares against the unfloored budget. -/
theorem C4_pickparams_checkparams_counterexample :
    checkparams 2097152 ⟨20000, 1⟩ (pickparams 2097152 ⟨20000, 1⟩).logN
      (pickparams 2097152 ⟨20000, 1⟩).r (pickparams 2097152 ⟨20000, 1⟩).p
      = 10 := by decide

/-- C4 (amended): for every memory budget of at least 1 MiB (the `memtouse`
floor) and every raw ops budget, `r * p < 2 ^ 30` holds for the
`pickparams` output; and whenever the raw ops budget is at least 32768
(so the floor applied by `pickparams` but absent from `checkparams` is a
no-op), the output also passes `checkparams` against the same budgets. -/
theorem C4_pickparams_valid (memlimit : ℕ) (raw : Dbl)
    (hden : 0 < raw.den) (hmem : 2 ^ 20 ≤ memlimit) :
    (pickparams memlimit raw).r * (pickparams memlimit raw).p < 2 ^ 30 ∧
    (raw.blt (Dbl.ofNat 32768) = false →
      checkparams memlimit raw (pickparams memlimit raw).logN
        (pickparams memlimit raw).r (pickparams memlimit raw).p = 0) := by
  constructor
  · cases hops : raw.blt (Dbl.ofNat 32768) with
    | true =>
      have hPeq : pickparams memlimit raw =
          pickparams_post memlimit (Dbl.ofNat 32768) := by
        simp [pickparams, hops]
      obtain ⟨hr, _, _, _, hrp, _, _⟩ :=
        pickparams_post_props memlimit (Dbl.ofNat 32768) (by simp [Dbl.ofNat])
          (by rw [Dbl.toRat_ofNat]; norm_num) hmem
      rw [hPeq, hr]
      omega
    | false =>
      have hflo : (32768 : ℚ) ≤ raw.toRat := by
        have hiff := Dbl.blt_iff (a := raw) (b := Dbl.ofNat 32768) hden
          (by simp [Dbl.ofNat])
        rw [hops] at hiff
        have hn : ¬ raw.toRat < (Dbl.ofNat 32768).toRat := by
          intro hc
          exact absurd (hiff.mpr hc) (by simp)
        rw [Dbl.toRat_ofNat] at hn
        have := not_lt.mp hn
        calc (32768 : ℚ) = ((32768 : ℕ) : ℚ) := by norm_num
          _ ≤ raw.toRat := this
      have hPeq : pickparams memlimit raw = pickparams_post memlimit raw := by
        simp [pickparams, hops]
      obtain ⟨hr, _, _, _, hrp, _, _⟩ :=
        pickparams_post_props memlimit raw hden hflo hmem
      rw [hPeq, hr]
      omega
  · intro hops
    exact pickparams_passes_checkparams memlimit raw hden hmem hops

/-- Witness for C4 (amended) at memory budget 1 MiB and raw ops budget
40000. -/
theorem C4_pickparams_valid_witness :
    (0 < (Dbl.mk 40000 1).den ∧ 2 ^ 20 ≤ 1048576) ∧
    ((pickparams 1048576 ⟨40000, 1⟩).r * (pickparams 1048576 ⟨40000, 1⟩).p
        < 2 ^ 30 ∧
     ((Dbl.mk 40000 1).blt (Dbl.ofNat 32768) = false →
       checkparams 1048576 ⟨40000, 1⟩ (pickparams 1048576 ⟨40000, 1⟩).logN
         (pickparams 1048576 ⟨40000, 1⟩).r
         (pickparams 1048576 ⟨40000, 1⟩).p = 0)) :=
  ⟨⟨by decide, by decide⟩,
   C4_pickparams_valid 1048576 ⟨40000, 1⟩ (by decide) (by decide)⟩

/-!
Byte-level model.  Buffers are `List ℕ` of byte values.  The cryptographic
primitives are abstract deterministic functions.
-/

/-- The abstract cryptographic primitives consumed by the core: SHA-256
(32-byte output), HMAC-SHA256 (key, message ↦ 32-byte output), the scrypt
mixing function (`crypto_scrypt` / `ScryptHashFunction`: password, salt, N,
r, p, output length ↦ derived bytes), and the AES-256-CTR keystream (key,
byte index ↦ keystream byte) with initial counter 0.  Where output lengths
matter, theorems carry them as hypotheses. -/
structure Prims where
  sha256 : List ℕ → List ℕ
  hmac : List ℕ → List ℕ → List ℕ
  scryptKDF : List ℕ → List ℕ → ℕ → ℕ → ℕ → ℕ → List ℕ
  keystream : List ℕ → ℕ → ℕ

/-- Big-endian 32-bit encode (`be32enc` of `sysendian.h`). -/
def be32enc (x : ℕ) : List ℕ :=
  [x / 2 ^ 24 % 256, x / 2 ^ 16 % 256, x / 2 ^ 8 % 256, x % 256]

/-- Big-endian 32-bit decode (`be32dec` of `sysendian.h`). -/
def be32dec (l : List ℕ) : ℕ :=
  2 ^ 24 * l.getD 0 0 + 2 ^ 16 * l.getD 1 0 + 2 ^ 8 * l.getD 2 0 + l.getD 3 0

theorem be32enc_length (x : ℕ) : (be32enc x).length = 4 := rfl

theorem be32dec_be32enc {x : ℕ} (h : x < 2 ^ 32) : be32dec (be32enc x) = x := by
  simp only [be32enc, be32dec, List.getD_cons_zero, List.getD_cons_succ]
  omega

/-- The six magic bytes `"scrypt"`. -/
def magic : List ℕ := [115, 99, 114, 121, 112, 116]

/-- CTR-mode byte stream: XOR the buffer with the keystream starting at byte
offset `off` (the `crypto_aesctr_stream` abstraction; encrypt and decrypt
are the same operation). -/
def aesctr_stream (ks : ℕ → ℕ) : ℕ → List ℕ → List ℕ
  | _, [] => []
  | off, b :: bs => (b ^^^ (ks off % 256)) :: aesctr_stream ks (off + 1) bs

theorem aesctr_stream_length (ks : ℕ → ℕ) (off : ℕ) (l : List ℕ) :
    (aesctr_stream ks off l).length = l.length := by
  induction l generalizing off with
  | nil => rfl
  | cons b bs ih => simp [aesctr_stream, ih]

theorem aesctr_stream_append (ks : ℕ → ℕ) (off : ℕ) (l₁ l₂ : List ℕ) :
    aesctr_stream ks off (l₁ ++ l₂) =
      aesctr_stream ks off l₁ ++ aesctr_stream ks (off + l₁.length) l₂ := by
  induction l₁ generalizing off with
  | nil => rfl
  | cons b bs ih =>
    simp only [List.cons_append, aesctr_stream, List.length_cons,
      List.append_eq]
    have hoff : off + 1 + bs.length = off + (bs.length + 1) := by omega
    rw [ih (off + 1), hoff]

theorem aesctr_stream_invol (ks : ℕ → ℕ) (off : ℕ) (l : List ℕ) :
    aesctr_stream ks off (aesctr_stream ks off l) = l := by
  induction l generalizing off with
  | nil => rfl
  | cons b bs ih =>
    simp only [aesctr_stream, ih]
    rw [Nat.xor_cancel_right]

/-- The 48-byte header/record prefix written identically by
`scryptenc_setup` and `KDF`: magic, version 0, `logN` byte, big-endian `r`
and `p`, 32-byte salt. -/
def hdr48 (logNb r p : ℕ) (salt : List ℕ) : List ℕ :=
  magic ++ [0, logNb] ++ be32enc r ++ be32enc p ++ salt

theorem hdr48_length {salt : List ℕ} (h : salt.length = 32) (logNb r p : ℕ) :
    (hdr48 logNb r p salt).length = 48 := by
  simp [hdr48, magic, be32enc, h]

theorem hdr48_take6 (logNb r p : ℕ) (salt : List ℕ) :
    (hdr48 logNb r p salt ++ rest).take 6 = magic := by
  simp [hdr48, magic]

theorem hdr48_getD6 (logNb r p : ℕ) (salt rest : List ℕ) :
    (hdr48 logNb r p salt ++ rest).getD 6 0 = 0 := by
  simp [hdr48, magic, List.getD_append, be32enc]

theorem hdr48_getD7 (logNb r p : ℕ) (salt rest : List ℕ) :
    (hdr48 logNb r p salt ++ rest).getD 7 0 = logNb := by
  simp [hdr48, magic, List.getD_append, be32enc]

theorem hdr48_parse_r (logNb r p : ℕ) (salt rest : List ℕ) :
    ((hdr48 logNb r p salt ++ rest).drop 8).take 4 = be32enc r := by
  simp [hdr48, magic, be32enc]

theorem hdr48_parse_p (logNb r p : ℕ) (salt rest : List ℕ) :
    ((hdr48 logNb r p salt ++ rest).drop 12).take 4 = be32enc p := by
  simp [hdr48, magic, be32enc]

theorem hdr48_parse_salt (logNb r p : ℕ) {salt : List ℕ} (rest : List ℕ)
    (h : salt.length = 32) :
    ((hdr48 logNb r p salt ++ rest).drop 16).take 32 = salt := by
  simp [hdr48, magic, be32enc, List.take_append_of_le_length, h,
    List.take_of_length_le]

theorem hdr48_take48 (logNb r p : ℕ) {salt : List ℕ} (rest : List ℕ)
    (h : salt.length = 32) :
    (hdr48 logNb r p salt ++ rest).take 48 = hdr48 logNb r p salt :=
  List.take_left' (hdr48_length h logNb r p)

theorem hdr48_drop48 (logNb r p : ℕ) {salt : List ℕ} (rest : List ℕ)
    (h : salt.length = 32) :
    (hdr48 logNb r p salt ++ rest).drop 48 = rest :=
  List.drop_left' (hdr48_length h logNb r p)

/-- A call made to the scrypt mixing primitive, recorded so that theorems
can state which arguments reached it and whether it was reached at all. -/
structure ScryptCall where
  passwd : List ℕ
  salt : List ℕ
  n : ℕ
  r : ℕ
  p : ℕ
  dkLen : ℕ
deriving DecidableEq

/-- Result of `Verify`: the C return code, and the scrypt invocation made
(if any). -/
structure VerifyResult where
  rc : ℕ
  call : Option ScryptCall
deriving DecidableEq

/-- Embedding of `KDF` (`src/scryptwrapper/keyderivation.c` lines 38-73):
build the 96-byte verification record.  `N` is `(uint64_t)1 << logN`,
modelled as `2 ^ logN % 2 ^ 64` (64-bit register semantics; `logN < 64` in
every valid call), and the stored `logN` byte is `logN % 256` (`kdf[7]` is a
`uint8_t`).  The scrypt call itself is abstracted as always succeeding, so
the C return code is 0 and the record is the function value. -/
def KDF (P : Prims) (passwd : List ℕ) (logN r p : ℕ) (salt : List ℕ) :
    List ℕ :=
  let dk := P.scryptKDF passwd salt (2 ^ logN % 2 ^ 64) r p 64
  let h48 := hdr48 (logN % 256) r p salt
  let h64 := h48 ++ (P.sha256 h48).take 16
  h64 ++ (P.hmac (dk.drop 32) h64).take 32

/-- Embedding of `Verify` (`src/scryptwrapper/keyderivation.c` lines
78-114): parse `logN`, `r`, `p`, salt from the record, reject on checksum
mismatch (code 7), derive the key with the parsed parameters as they are,
and compare the keyed signature (mismatch: code 11; match: 0). -/
def Verify (P : Prims) (kdf : List ℕ) (passwd : List ℕ) : VerifyResult :=
  let n := 2 ^ kdf.getD 7 0 % 2 ^ 64
  let r := be32dec ((kdf.drop 8).take 4)
  let p := be32dec ((kdf.drop 12).take 4)
  let salt := (kdf.drop 16).take 32
  if (P.sha256 (kdf.take 48)).take 16 ≠ (kdf.drop 48).take 16 then ⟨7, none⟩
  else
    let dk := P.scryptKDF passwd salt n r p 64
    if (P.hmac (dk.drop 32) (kdf.take 64)).take 32 ≠ (kdf.drop 64).take 32
    then ⟨11, some ⟨passwd, salt, n, r, p, 64⟩⟩
    else ⟨0, some ⟨passwd, salt, n, r, p, 64⟩⟩

/-- Embedding of `scryptenc_setup` (`lib/scryptenc/scryptenc.c` lines
160-212): pick parameters, derive the key, build the 96-byte header.
The fresh random salt (`crypto_entropy_read`) is an input.  Returns
(header, derived key). -/
def scryptenc_setup (P : Prims) (passwd : List ℕ) (memlimit : ℕ)
    (raw : Dbl) (salt : List ℕ) : List ℕ × List ℕ :=
  let prm := pickparams memlimit raw
  let dk := P.scryptKDF passwd salt (2 ^ prm.logN % 2 ^ 64) prm.r prm.p 64
  let h48 := hdr48 (prm.logN % 256) prm.r prm.p salt
  let h64 := h48 ++ (P.sha256 h48).take 16
  (h64 ++ (P.hmac (dk.drop 32) h64).take 32, dk)

/-- Result of `scryptdec_setup`: return code, derived key, and whether the
scrypt primitive was invoked. -/
structure SetupResult where
  rc : ℕ
  dk : List ℕ
  scryptCalled : Bool
deriving DecidableEq

/-- Embedding of `scryptdec_setup` (`lib/scryptenc/scryptenc.c` lines
214-265): parse the header, verify the checksum (code 7), validate the
parameters against the budgets via `checkparams`, derive the key
(`N = (uint64_t)1 << logN`, with `logN ∈ [1,63]` guaranteed by
`checkparams`), and check the header signature (code 11). -/
def scryptdec_setup (P : Prims) (header passwd : List ℕ) (memlimit : ℕ)
    (raw : Dbl) : SetupResult :=
  let logN := header.getD 7 0
  let r := be32dec ((header.drop 8).take 4)
  let p := be32dec ((header.drop 12).take 4)
  let salt := (header.drop 16).take 32
  if (P.sha256 (header.take 48)).take 16 ≠ (header.drop 48).take 16 then
    ⟨7, [], false⟩
  else if checkparams memlimit raw logN r p ≠ 0 then
    ⟨checkparams memlimit raw logN r p, [], false⟩
  else
    let dk := P.scryptKDF passwd salt (2 ^ logN % 2 ^ 64) r p 64
    if (P.hmac (dk.drop 32) (header.take 64)).take 32 ≠
        (header.drop 64).take 32 then ⟨11, dk, true⟩
    else ⟨0, dk, true⟩

/-- Embedding of `scryptenc_buf` (`lib/scryptenc/scryptenc.c` lines
273-316): header, then the AES-CTR encrypted payload, then the 32-byte
HMAC over header ++ ciphertext.  On this (only) exit path the source zeroes
`dk`; the allocation-failure returns 5/6 are outside the model. -/
def scryptenc_buf (P : Prims) (inbuf passwd : List ℕ) (memlimit : ℕ)
    (raw : Dbl) (salt : List ℕ) : List ℕ :=
  let hd := scryptenc_setup P passwd memlimit raw salt
  let ct := aesctr_stream (P.keystream (hd.2.take 32)) 0 inbuf
  (hd.1 ++ ct) ++ (P.hmac (hd.2.drop 32) (hd.1 ++ ct)).take 32

/-- Result of `scryptdec_buf`: return code, the bytes the function wrote
into the caller's output buffer, the value stored through `outlen` (if the
store was reached), whether `insecure_memzero(dk, 64)` ran, and whether the
scrypt primitive was invoked. -/
structure DecBufResult where
  rc : ℕ
  out : List ℕ
  outlen : Option ℕ
  dkWiped : Bool
  scryptCalled : Bool
deriving DecidableEq

/-- Embedding of `scryptdec_buf` (`lib/scryptenc/scryptenc.c` lines
325-381): magic/version/length checks, `scryptdec_setup`, decrypt
`inbuflen - 128` bytes into the output buffer and set `*outlen`, then
verify the trailing HMAC; `insecure_memzero(dk, 64)` runs only after that
verification succeeds. -/
def scryptdec_buf (P : Prims) (inbuf passwd : List ℕ) (memlimit : ℕ)
    (raw : Dbl) : DecBufResult :=
  if inbuf.length < 7 ∨ inbuf.take 6 ≠ magic then ⟨7, [], none, false, false⟩
  else if inbuf.getD 6 0 ≠ 0 then ⟨8, [], none, false, false⟩
  else if inbuf.length < 128 then ⟨7, [], none, false, false⟩
  else
    let s := scryptdec_setup P inbuf passwd memlimit raw
    if s.rc ≠ 0 then ⟨s.rc, [], none, false, s.scryptCalled⟩
    else
      let out := aesctr_stream (P.keystream (s.dk.take 32)) 0
        ((inbuf.drop 96).take (inbuf.length - 128))
      if (P.hmac (s.dk.drop 32) (inbuf.take (inbuf.length - 32))).take 32 ≠
          (inbuf.drop (inbuf.length - 32)).take 32 then
        ⟨7, out, some (inbuf.length - 128), false, true⟩
      else ⟨0, out, some (inbuf.length - 128), true, true⟩

/-- Embedding of `kdfVerifySync`
(`src/node-boilerplate/scrypt_kdf-verify_sync.cc` lines 14-35): every
`Verify` result other than 0 and 11 is thrown as an error (`none`);
otherwise the binding returns `!result`, i.e. `true` exactly for 0. -/
def kdfVerifySync (P : Prims) (kdf passwd : List ℕ) : Option Bool :=
  let res := (Verify P kdf passwd).rc
  if res ≠ 0 ∧ res ≠ 11 then none
  else some (res = 0)

/-- A concrete deterministic SHA-256 stand-in used for closed witnesses:
32 bytes, value depending on the whole message. -/
def cSha256 : List ℕ → List ℕ := fun m => List.replicate 32 (m.sum % 256)

/-- A concrete deterministic HMAC-SHA256 stand-in for closed witnesses. -/
def cHmac : List ℕ → List ℕ → List ℕ :=
  fun k m => List.replicate 32 ((k.sum + 2 * m.sum + 1) % 256)

/-- A concrete deterministic scrypt stand-in for closed witnesses. -/
def cScrypt : List ℕ → List ℕ → ℕ → ℕ → ℕ → ℕ → List ℕ :=
  fun pw s n r p dkLen => List.replicate dkLen ((pw.sum + s.sum + n + r + p) % 256)

/-- A concrete deterministic AES-CTR keystream stand-in for closed
witnesses. -/
def cKeystream : List ℕ → ℕ → ℕ := fun k i => (k.sum + i) % 256

/-- The concrete primitive bundle used by closed witnesses and
counterexamples. -/
def cPrims : Prims := ⟨cSha256, cHmac, cScrypt, cKeystream⟩

/-- C5: the `memtouse` of `scrypt/win/memlimit.c` truncates the memory
fraction itself to an integer (line 263, `(size_t)maxmemfrac *
memlimit_min`), so with fraction 0.5 and 1 GiB available it yields the
1 MiB floor instead of the 512 MiB the specified computation (implemented
by `src/util/memlimit.c`) produces. -/
theorem C5_memtouse_win_truncates_fraction :
    memtouse_win 0 ⟨1, 2⟩ (2 ^ 30) = 1048576 ∧
    memtouse 0 ⟨1, 2⟩ (2 ^ 30) = 536870912 := by decide

/-- C2: verifying the 96-byte record `KDF` builds from password `passwd`
with the same password succeeds: `Verify` returns 0, and the binding
`kdfVerifySync` surfaces this as `some true`.  Holds for every salt and
every valid parameter choice (`logN ≤ 63`, `r, p` in `uint32` range),
for arbitrary deterministic primitives of the correct output lengths. -/
theorem C2_kdf_verify_roundtrip (P : Prims) (passwd salt : List ℕ)
    (logN r p : ℕ) (hsalt : salt.length = 32) (hlogN : logN ≤ 63)
    (hr : r < 2 ^ 32) (hp : p < 2 ^ 32)
    (hsha : ∀ m, (P.sha256 m).length = 32)
    (hhmac : ∀ k m, (P.hmac k m).length = 32) :
    (Verify P (KDF P passwd logN r p salt) passwd).rc = 0 ∧
    kdfVerifySync P (KDF P passwd logN r p salt) passwd = some true := by
  have hb : logN % 256 = logN := Nat.mod_eq_of_lt (by omega)
  obtain ⟨dk, hdk⟩ : ∃ d, P.scryptKDF passwd salt (2 ^ logN % 2 ^ 64) r p 64 = d :=
    ⟨_, rfl⟩
  obtain ⟨h48, hh48⟩ : ∃ h, hdr48 (logN % 256) r p salt = h := ⟨_, rfl⟩
  obtain ⟨c16, hc16⟩ : ∃ c, (P.sha256 h48).take 16 = c := ⟨_, rfl⟩
  obtain ⟨sig, hsig⟩ : ∃ s, (P.hmac (dk.drop 32) (h48 ++ c16)).take 32 = s :=
    ⟨_, rfl⟩
  have hKDF : KDF P passwd logN r p salt = (h48 ++ c16) ++ sig := by
    simp only [KDF, hdk, hh48, hc16, hsig]
  have hl48 : h48.length = 48 := by
    rw [← hh48]
    exact hdr48_length hsalt _ _ _
  have hlc16 : c16.length = 16 := by
    rw [← hc16]
    simp [List.length_take, hsha]
  have hlsig : sig.length = 32 := by
    rw [← hsig]
    simp [List.length_take, hhmac]
  have hl64 : (h48 ++ c16).length = 64 := by simp [hl48, hlc16]
  have hassoc : (h48 ++ c16) ++ sig = h48 ++ (c16 ++ sig) :=
    List.append_assoc _ _ _
  have ht48 : ((h48 ++ c16) ++ sig).take 48 = h48 := by
    rw [hassoc, ← hh48]
    exact hdr48_take48 _ _ _ _ hsalt
  have ht16 : (((h48 ++ c16) ++ sig).drop 48).take 16 = c16 := by
    rw [hassoc, ← hh48, hdr48_drop48 _ _ _ _ hsalt]
    exact List.take_left' hlc16
  have ht64 : ((h48 ++ c16) ++ sig).take 64 = h48 ++ c16 :=
    List.take_left' hl64
  have hd64 : (((h48 ++ c16) ++ sig).drop 64).take 32 = sig := by
    rw [List.drop_left' hl64, ← hlsig]
    exact List.take_length sig
  have hg7 : ((h48 ++ c16) ++ sig).getD 7 0 = logN := by
    rw [hassoc, ← hh48, hdr48_getD7, hb]
  have hgr : be32dec ((((h48 ++ c16) ++ sig).drop 8).take 4) = r := by
    rw [hassoc, ← hh48, hdr48_parse_r]
    exact be32dec_be32enc hr
  have hgp : be32dec ((((h48 ++ c16) ++ sig).drop 12).take 4) = p := by
    rw [hassoc, ← hh48, hdr48_parse_p]
    exact be32dec_be32enc hp
  have hgs : (((h48 ++ c16) ++ sig).drop 16).take 32 = salt := by
    rw [hassoc, ← hh48]
    exact hdr48_parse_salt _ _ _ _ hsalt
  have hrc : (Verify P ((h48 ++ c16) ++ sig) passwd).rc = 0 := by
    simp only [Verify, hg7, hgr, hgp, hgs, ht48, ht16, ht64, hd64, hc16, hdk,
      hsig]
    rw [if_neg (fun hno => hno rfl), if_neg (fun hno => hno rfl)]
  constructor
  · rw [hKDF]
    exact hrc
  · rw [hKDF]
    simp only [kdfVerifySync, hrc]
    simp

/-- Witness for C2 at a concrete password, salt and parameter choice. -/
theorem C2_kdf_verify_roundtrip_witness :
    ((List.replicate 32 3).length = 32 ∧ 10 ≤ 63 ∧ 8 < 2 ^ 32 ∧ 1 < 2 ^ 32 ∧
     (∀ m, (cPrims.sha256 m).length = 32) ∧
     (∀ k m, (cPrims.hmac k m).length = 32)) ∧
    ((Verify cPrims (KDF cPrims [1, 2] 10 8 1 (List.replicate 32 3)) [1, 2]).rc
      = 0 ∧
     kdfVerifySync cPrims (KDF cPrims [1, 2] 10 8 1 (List.replicate 32 3))
       [1, 2] = some true) :=
  ⟨⟨by decide, by decide, by decide, by decide,
    fun m => by simp [cPrims, cSha256],
    fun k m => by simp [cPrims, cHmac]⟩,
   C2_kdf_verify_roundtrip cPrims [1, 2] (List.replicate 32 3) 10 8 1
     (by decide) (by decide) (by decide) (by decide)
     (fun m => by simp [cPrims, cSha256])
     (fun k m => by simp [cPrims, cHmac])⟩

/-- The read-encrypt-write loop of `scryptenc_file` (lines 425-434):
process chunks in order, each XORed with the continuing keystream; a
zero-length read ends the loop.  Returns the concatenation of the
ciphertext blocks written out (which is also the data fed chunkwise to the
running HMAC). -/
def encChunks (ks : ℕ → ℕ) : ℕ → List (List ℕ) → List ℕ
  | _, [] => []
  | off, c :: cs =>
    if c = [] then []
    else aesctr_stream ks off c ++ encChunks ks (off + c.length) cs

/-- Embedding of `scryptenc_file` (`lib/scryptenc/scryptenc.c` lines
389-452): header (hashed into the running HMAC and written), encrypted
chunks, then the final 32-byte HMAC.  The input stream is given as the
list of successful `fread` results (each nonempty, in order). -/
def scryptenc_file (P : Prims) (chunks : List (List ℕ)) (passwd : List ℕ)
    (memlimit : ℕ) (raw : Dbl) (salt : List ℕ) : List ℕ :=
  let hd := scryptenc_setup P passwd memlimit raw salt
  let ct := encChunks (P.keystream (hd.2.take 32)) 0 chunks
  (hd.1 ++ ct) ++ (P.hmac (hd.2.drop 32) (hd.1 ++ ct)).take 32

/-- The sliding-window read loop of `scryptdec_file` (lines 525-548).
State: the withheld buffer (at most 32 bytes at each loop entry), the
plaintext written out so far, and the ciphertext fed to the running HMAC so
far.  Each nonempty chunk is appended; once more than 32 bytes are
buffered, everything except the trailing 32 bytes is hashed, decrypted with
the continuing keystream, and emitted. -/
def decChunks (ks : ℕ → ℕ) : List (List ℕ) → List ℕ → List ℕ → List ℕ →
    List ℕ × List ℕ × List ℕ
  | [], buf, out, hct => (buf, out, hct)
  | c :: cs, buf, out, hct =>
    if c = [] then (buf, out, hct)
    else
      if (buf ++ c).length ≤ 32 then decChunks ks cs (buf ++ c) out hct
      else
        decChunks ks cs ((buf ++ c).drop ((buf ++ c).length - 32))
          (out ++ aesctr_stream ks hct.length
            ((buf ++ c).take ((buf ++ c).length - 32)))
          (hct ++ (buf ++ c).take ((buf ++ c).length - 32))

/-- Result of `scryptdec_file`: return code, plaintext bytes written to the
output stream, whether `insecure_memzero(dk, 64)` ran, and whether the
scrypt primitive was invoked. -/
structure DecFileResult where
  rc : ℕ
  written : List ℕ
  dkWiped : Bool
  scryptCalled : Bool
deriving DecidableEq

/-- Embedding of `scryptdec_file` (`lib/scryptenc/scryptenc.c` lines
460-569): 7-byte header read (code 7 on a short stream), magic (7) and
version (8) checks, 89-byte header remainder read (7 on a short stream),
`scryptdec_setup` on the 96-byte header, then the sliding-window loop over
the remaining stream (supplied as the list of successful `fread` results),
the final `buflen < 32` check, and the trailing-tag comparison.
`insecure_memzero(dk, 64)` runs only on the success path. -/
def scryptdec_file (P : Prims) (container : List ℕ)
    (chunks : List (List ℕ)) (passwd : List ℕ) (memlimit : ℕ) (raw : Dbl) :
    DecFileResult :=
  if container.length < 7 then ⟨7, [], false, false⟩
  else if container.take 6 ≠ magic then ⟨7, [], false, false⟩
  else if container.getD 6 0 ≠ 0 then ⟨8, [], false, false⟩
  else if container.length < 96 then ⟨7, [], false, false⟩
  else
    let s := scryptdec_setup P (container.take 96) passwd memlimit raw
    if s.rc ≠ 0 then ⟨s.rc, [], false, s.scryptCalled⟩
    else
      let st := decChunks (P.keystream (s.dk.take 32)) chunks [] [] []
      if st.1.length < 32 then ⟨7, st.2.1, false, true⟩
      else if (P.hmac (s.dk.drop 32) (container.take 96 ++ st.2.2)).take 32 ≠
          st.1.take 32 then ⟨7, st.2.1, false, true⟩
      else ⟨0, st.2.1, true, true⟩

/-- With every chunk nonempty, the chunked encryption loop produces exactly
the one-shot encryption of the concatenated stream. -/
theorem encChunks_join (ks : ℕ → ℕ) (cs : List (List ℕ))
    (hne : ∀ c ∈ cs, c ≠ []) (off : ℕ) :
    encChunks ks off cs = aesctr_stream ks off cs.flatten := by
  induction cs generalizing off with
  | nil => rfl
  | cons c cs ih =>
    have hc : c ≠ [] := hne c (List.mem_cons_self _ _)
    simp only [encChunks, List.flatten_cons, if_neg hc]
    rw [aesctr_stream_append, ih (fun d hd => hne d (List.mem_cons_of_mem _ hd))]

/-- Loop invariant of the sliding-window read loop: with every chunk
nonempty, a buffer of at most 32 bytes, and the written output equal to the
decryption of the hashed ciphertext, the final state conserves the byte
stream (`hct' ++ buf' = hct ++ buf ++ join`), keeps the output the
decryption of the hashed ciphertext, and leaves exactly
`min (buf.length + join.length) 32` bytes withheld. -/
theorem decChunks_spec (ks : ℕ → ℕ) (cs : List (List ℕ)) :
    ∀ (buf out hct : List ℕ), (∀ c ∈ cs, c ≠ []) → buf.length ≤ 32 →
    out = aesctr_stream ks 0 hct →
    (decChunks ks cs buf out hct).2.2 ++ (decChunks ks cs buf out hct).1 =
      hct ++ (buf ++ cs.flatten) ∧
    (decChunks ks cs buf out hct).2.1 =
      aesctr_stream ks 0 (decChunks ks cs buf out hct).2.2 ∧
    (decChunks ks cs buf out hct).1.length =
      min (buf.length + cs.flatten.length) 32 := by
  induction cs with
  | nil =>
    intro buf out hct hne hlen hout
    simp only [decChunks, List.flatten_nil]
    refine ⟨by simp, hout, ?_⟩
    simp
    omega
  | cons c cs ih =>
    intro buf out hct hne hlen hout
    have hc : c ≠ [] := hne c (List.mem_cons_self _ _)
    have hne' : ∀ d ∈ cs, d ≠ [] := fun d hd => hne d (List.mem_cons_of_mem _ hd)
    have hcpos : 0 < c.length := List.length_pos.mpr hc
    simp only [decChunks, if_neg hc, List.flatten_cons]
    by_cases h32 : (buf ++ c).length ≤ 32
    · rw [if_pos h32]
      obtain ⟨ha, hb, hc2⟩ := ih (buf ++ c) out hct hne' h32 hout
      refine ⟨?_, hb, ?_⟩
      · rw [ha]
        simp [List.append_assoc]
      · rw [hc2]
        simp only [List.length_append]
        omega
    · rw [if_neg h32]
      have hklen : ((buf ++ c).drop ((buf ++ c).length - 32)).length = 32 := by
        simp only [List.length_drop]
        omega
      have hout' : out ++ aesctr_stream ks hct.length
          ((buf ++ c).take ((buf ++ c).length - 32)) =
          aesctr_stream ks 0
            (hct ++ (buf ++ c).take ((buf ++ c).length - 32)) := by
        rw [aesctr_stream_append, ← hout]
        congr 2
        omega
      obtain ⟨ha, hb, hc2⟩ := ih ((buf ++ c).drop ((buf ++ c).length - 32))
        (out ++ aesctr_stream ks hct.length
          ((buf ++ c).take ((buf ++ c).length - 32)))
        (hct ++ (buf ++ c).take ((buf ++ c).length - 32)) hne'
        (by omega) hout'
      refine ⟨?_, hb, ?_⟩
      · rw [ha]
        have hsplit : (buf ++ c).take ((buf ++ c).length - 32) ++
            (buf ++ c).drop ((buf ++ c).length - 32) = buf ++ c :=
          List.take_append_drop _ _
        rw [List.append_assoc hct,
          ← List.append_assoc ((buf ++ c).take ((buf ++ c).length - 32))
            ((buf ++ c).drop ((buf ++ c).length - 32)) cs.flatten,
          hsplit, List.append_assoc buf c cs.flatten]
      · rw [hc2, hklen]
        simp only [List.length_append] at h32 ⊢
        omega

/-- `scryptdec_setup` reads only the first 96 bytes of its header argument,
so passing the 96-byte prefix (as `scryptdec_file` does) or the whole
container (as `scryptdec_buf` does) is the same. -/
theorem scryptdec_setup_take96 (P : Prims) (c passwd : List ℕ)
    (memlimit : ℕ) (raw : Dbl) :
    scryptdec_setup P (c.take 96) passwd memlimit raw =
      scryptdec_setup P c passwd memlimit raw := by
  have hg7 : (c.take 96).getD 7 0 = c.getD 7 0 := by
    simp [List.getD_eq_getElem?_getD, List.getElem?_take]
  have hdr8 : ((c.take 96).drop 8).take 4 = (c.drop 8).take 4 := by
    rw [List.drop_take, List.take_take]
    norm_num
  have hdr12 : ((c.take 96).drop 12).take 4 = (c.drop 12).take 4 := by
    rw [List.drop_take, List.take_take]
    norm_num
  have hdr16 : ((c.take 96).drop 16).take 32 = (c.drop 16).take 32 := by
    rw [List.drop_take, List.take_take]
    norm_num
  have ht48 : (c.take 96).take 48 = c.take 48 := by
    rw [List.take_take]
    norm_num
  have hdr48x : ((c.take 96).drop 48).take 16 = (c.drop 48).take 16 := by
    rw [List.drop_take, List.take_take]
    norm_num
  have ht64 : (c.take 96).take 64 = c.take 64 := by
    rw [List.take_take]
    norm_num
  have hdr64 : ((c.take 96).drop 64).take 32 = (c.drop 64).take 32 := by
    rw [List.drop_take, List.take_take]
    norm_num
  simp only [scryptdec_setup, hg7, hdr8, hdr12, hdr16, ht48, hdr48x, ht64,
    hdr64]

/-- C9: after a matching checksum, `Verify` invokes the scrypt primitive
with the parameters parsed from the record exactly as they are: `N` is the
64-bit shift `2 ^ logN-byte mod 2 ^ 64` (which wraps for byte values ≥ 64),
`r` and `p` are the raw big-endian fields, and no `[1,63]` range check,
`r * p < 2 ^ 30` check, or budget check is applied — the hypotheses place
no constraint whatever on those fields. -/
theorem C9_verify_no_param_validation (P : Prims) (kdf passwd : List ℕ)
    (hlen : kdf.length = 96)
    (hchk : (P.sha256 (kdf.take 48)).take 16 = (kdf.drop 48).take 16) :
    (Verify P kdf passwd).call =
      some ⟨passwd, (kdf.drop 16).take 32, 2 ^ kdf.getD 7 0 % 2 ^ 64,
        be32dec ((kdf.drop 8).take 4), be32dec ((kdf.drop 12).take 4), 64⟩ := by
  simp only [Verify]
  rw [if_neg (fun hno => hno hchk)]
  split <;> rfl

/-- A 96-byte record with correct magic, `logN` byte 200, `r = p = 2 ^ 31`
(so `r * p ≥ 2 ^ 30` and `logN ∉ [1,63]`), and a checksum matching its
first 48 bytes. -/
def wildrec : List ℕ :=
  hdr48 200 (2 ^ 31) (2 ^ 31) (List.replicate 32 0) ++
    ((cSha256 (hdr48 200 (2 ^ 31) (2 ^ 31) (List.replicate 32 0))).take 16 ++
      List.replicate 32 7)

/-- Witness for C9: on `wildrec` the derivation is reached with the wrapped
`N = 2 ^ 200 mod 2 ^ 64 = 0` and out-of-range `r`, `p`. -/
theorem C9_verify_no_param_validation_witness :
    (wildrec.length = 96 ∧
     (cPrims.sha256 (wildrec.take 48)).take 16 = (wildrec.drop 48).take 16) ∧
    (Verify cPrims wildrec [9]).call =
      some ⟨[9], (wildrec.drop 16).take 32, 2 ^ wildrec.getD 7 0 % 2 ^ 64,
        be32dec ((wildrec.drop 8).take 4), be32dec ((wildrec.drop 12).take 4),
        64⟩ ∧
    2 ^ wildrec.getD 7 0 % 2 ^ 64 = 0 ∧
    2 ^ 30 ≤ be32dec ((wildrec.drop 8).take 4) *
      be32dec ((wildrec.drop 12).take 4) :=
  ⟨⟨by decide, by decide⟩,
   C9_verify_no_param_validation cPrims wildrec [9] (by decide) (by decide),
   by decide, by decide⟩

/-- The first 48 bytes of a record whose magic has been altered (first byte
116 instead of 115), otherwise well-formed. -/
def altmagic48 : List ℕ :=
  [116, 99, 114, 121, 112, 116, 0, 10] ++ be32enc 8 ++ be32enc 1 ++
    List.replicate 32 0

/-- A 96-byte record with altered magic whose checksum field has been
recomputed over the altered bytes. -/
def altmagicrec : List ℕ :=
  altmagic48 ++ ((cSha256 altmagic48).take 16 ++ List.replicate 32 7)

/-- C7 counterexample: a 96-byte record whose magic is altered but whose
checksum field matches the altered bytes makes `Verify` reach the expensive
scrypt derivation — `Verify` has no wrong-magic check at all, so the claim
that both entry points fail at the FormatMismatch stage before key
derivation is false for `Verify`. -/
theorem C7_verify_reaches_derivation_on_bad_magic :
    altmagicrec.take 6 ≠ magic ∧ altmagicrec.length = 96 ∧
    (Verify cPrims altmagicrec [1]).call.isSome = true := by decide

/-- C7 (amended): the container-decryption entry point `scryptdec_buf`
fails on an altered magic with code 7 before any derivation
(`scryptCalled = false`); `Verify` performs no magic check — it fails
before derivation only at the checksum stage (code 7), which an altered
magic triggers exactly when the stored checksum no longer matches the
record's first 48 bytes. -/
theorem C7_bad_magic_fails_before_derivation (P : Prims)
    (inbuf record passwd pw2 : List ℕ) (memlimit : ℕ) (raw : Dbl)
    (hmag : inbuf.take 6 ≠ magic)
    (hchk : (P.sha256 (record.take 48)).take 16 ≠ (record.drop 48).take 16) :
    scryptdec_buf P inbuf passwd memlimit raw = ⟨7, [], none, false, false⟩ ∧
    Verify P record pw2 = ⟨7, none⟩ := by
  constructor
  · simp only [scryptdec_buf]
    rw [if_pos (Or.inr hmag)]
  · simp only [Verify]
    rw [if_pos hchk]

/-- A 96-byte record with valid magic whose stored checksum does not match
its first 48 bytes. -/
def badsumrec : List ℕ :=
  hdr48 10 8 1 (List.replicate 32 0) ++
    (List.replicate 16 9 ++ List.replicate 32 7)

/-- Witness for C7 (amended) at concrete inputs. -/
theorem C7_bad_magic_fails_before_derivation_witness :
    (altmagicrec.take 6 ≠ magic ∧
     (cPrims.sha256 (badsumrec.take 48)).take 16 ≠
       (badsumrec.drop 48).take 16) ∧
    (scryptdec_buf cPrims altmagicrec [1] 1048576 ⟨40000, 1⟩ =
      ⟨7, [], none, false, false⟩ ∧
     Verify cPrims badsumrec [2] = ⟨7, none⟩) :=
  ⟨⟨by decide, by decide⟩,
   C7_bad_magic_fails_before_derivation cPrims altmagicrec badsumrec [1] [2]
     1048576 ⟨40000, 1⟩ (by decide) (by decide)⟩

/-- C10: for a container whose header authenticates (setup returns 0) but
whose trailing 32-byte tag does not match, `scryptdec_buf` has already
written the full decrypted payload (`inbuflen - 128` bytes) into the
caller's output buffer and stored that length through `outlen` before the
tag comparison: the authentication-failure return (code 7) leaves the
unauthenticated plaintext in the output. -/
theorem C10_decbuf_writes_before_auth (P : Prims) (inbuf passwd : List ℕ)
    (memlimit : ℕ) (raw : Dbl)
    (hlen : 128 ≤ inbuf.length)
    (hmag : inbuf.take 6 = magic)
    (hver : inbuf.getD 6 0 = 0)
    (hsetup : (scryptdec_setup P inbuf passwd memlimit raw).rc = 0)
    (htag : (P.hmac ((scryptdec_setup P inbuf passwd memlimit raw).dk.drop 32)
        (inbuf.take (inbuf.length - 32))).take 32 ≠
      (inbuf.drop (inbuf.length - 32)).take 32) :
    scryptdec_buf P inbuf passwd memlimit raw =
      ⟨7,
       aesctr_stream
         (P.keystream ((scryptdec_setup P inbuf passwd memlimit raw).dk.take 32))
         0 ((inbuf.drop 96).take (inbuf.length - 128)),
       some (inbuf.length - 128), false, true⟩ ∧
    (scryptdec_buf P inbuf passwd memlimit raw).out.length =
      inbuf.length - 128 := by
  have hres : scryptdec_buf P inbuf passwd memlimit raw =
      ⟨7,
       aesctr_stream
         (P.keystream ((scryptdec_setup P inbuf passwd memlimit raw).dk.take 32))
         0 ((inbuf.drop 96).take (inbuf.length - 128)),
       some (inbuf.length - 128), false, true⟩ := by
    simp only [scryptdec_buf]
    rw [if_neg ?hne1, if_neg ?hne2, if_neg ?hne3, if_neg ?hne4, if_pos htag]
    case hne1 =>
      rintro (h1 | h2)
      · omega
      · exact h2 hmag
    case hne2 =>
      intro h2
      exact h2 hver
    case hne3 => omega
    case hne4 =>
      intro h4
      exact h4 hsetup
  refine ⟨hres, ?_⟩
  rw [hres]
  rw [aesctr_stream_length, List.length_take, List.length_drop]
  omega

/-- A container built by `scryptenc_buf` over the empty plaintext. -/
def tagbox : List ℕ :=
  scryptenc_buf cPrims [] [1] 1048576 ⟨40000, 1⟩ (List.replicate 32 0)

/-- `tagbox` with its final tag byte incremented: header and header
signature still verify, the trailing tag does not. -/
def tagbad : List ℕ := tagbox.take 127 ++ [(tagbox.getD 127 0 + 1) % 256]

set_option maxRecDepth 100000 in
/-- Witness for C10 at the concrete corrupted container `tagbad`. -/
theorem C10_decbuf_writes_before_auth_witness :
    (128 ≤ tagbad.length ∧ tagbad.take 6 = magic ∧ tagbad.getD 6 0 = 0 ∧
     (scryptdec_setup cPrims tagbad [1] 1048576 ⟨40000, 1⟩).rc = 0 ∧
     (cPrims.hmac
        ((scryptdec_setup cPrims tagbad [1] 1048576 ⟨40000, 1⟩).dk.drop 32)
        (tagbad.take (tagbad.length - 32))).take 32 ≠
       (tagbad.drop (tagbad.length - 32)).take 32) ∧
    (scryptdec_buf cPrims tagbad [1] 1048576 ⟨40000, 1⟩ =
      ⟨7,
       aesctr_stream
         (cPrims.keystream
           ((scryptdec_setup cPrims tagbad [1] 1048576 ⟨40000, 1⟩).dk.take 32))
         0 ((tagbad.drop 96).take (tagbad.length - 128)),
       some (tagbad.length - 128), false, true⟩ ∧
     (scryptdec_buf cPrims tagbad [1] 1048576 ⟨40000, 1⟩).out.length =
       tagbad.length - 128) :=
  ⟨⟨by decide, by decide, by decide, by decide, by decide⟩,
   C10_decbuf_writes_before_auth cPrims tagbad [1] 1048576 ⟨40000, 1⟩
     (by decide) (by decide) (by decide) (by decide) (by decide)⟩

set_option maxRecDepth 100000 in
/-- C6: on the trailing-tag-mismatch exit of `scryptdec_buf` (and on every
error exit after derivation), the 64 bytes of key material are NOT
overwritten: the source places `insecure_memzero(dk, 64)` after the final
`memcmp`, so the early `return (7)` skips it.  Concretely, decrypting
`tagbad` derives the key (`scryptCalled`), fails authentication with
code 7, and leaves `dk` unwiped. -/
theorem C6_dk_not_wiped_on_error_exit :
    (scryptdec_buf cPrims tagbad [1] 1048576 ⟨40000, 1⟩).rc = 7 ∧
    (scryptdec_buf cPrims tagbad [1] 1048576 ⟨40000, 1⟩).scryptCalled = true ∧
    (scryptdec_buf cPrims tagbad [1] 1048576 ⟨40000, 1⟩).dkWiped = false := by
  decide

/-- A container built over the empty plaintext with a raw ops budget of
20000, which is below the 32768 floor that `pickparams` applies and
`checkparams` does not. -/
def lowopsbox : List ℕ :=
  scryptenc_buf cPrims [] [1] 2097152 ⟨20000, 1⟩ (List.replicate 32 0)

set_option maxRecDepth 100000 in
/-- C1 counterexample: decrypting the container `scryptenc_buf` produced,
with the same password and the same cost-policy inputs (memory budget 2 MiB,
ops product 20000), fails with code 10: `scryptdec_buf` re-validates the
header parameters through `checkparams`, which lacks the 32768 ops floor
that `pickparams` applied, so the round trip does not return 0. -/
theorem C1_roundtrip_counterexample :
    (scryptdec_buf cPrims lowopsbox [1] 2097152 ⟨20000, 1⟩).rc = 10 ∧
    (scryptdec_buf cPrims lowopsbox [1] 2097152 ⟨20000, 1⟩).out = [] := by
  decide

/-- C1 (amended): whenever the ops budget `opps · maxtime` is at least
32768 (so the floor applied by `pickparams` but not by `checkparams` is a
no-op), decrypting the output of `scryptenc_buf` with the same password and
the same budget inputs returns 0 and writes back exactly the plaintext,
with `*outlen` set to its length.  Holds for every plaintext, password and
salt, for arbitrary deterministic primitives of the right output lengths. -/
theorem C1_encrypt_decrypt_roundtrip (P : Prims) (inbuf passwd salt : List ℕ)
    (memlimit : ℕ) (raw : Dbl) (hsalt : salt.length = 32)
    (hden : 0 < raw.den) (hmem : 2 ^ 20 ≤ memlimit)
    (hops : raw.blt (Dbl.ofNat 32768) = false)
    (hsha : ∀ m, (P.sha256 m).length = 32)
    (hhmac : ∀ k m, (P.hmac k m).length = 32) :
    scryptdec_buf P (scryptenc_buf P inbuf passwd memlimit raw salt) passwd
      memlimit raw = ⟨0, inbuf, some inbuf.length, true, true⟩ := by
  obtain ⟨hr8, hlg1, hlg63, hp1, hrp⟩ := pickparams_props memlimit raw hden hmem
  have hchk0 := pickparams_passes_checkparams memlimit raw hden hmem hops
  have hlgmod : (pickparams memlimit raw).logN % 256 =
      (pickparams memlimit raw).logN := Nat.mod_eq_of_lt (by omega)
  have hrlt : (pickparams memlimit raw).r < 2 ^ 32 := by omega
  have hplt : (pickparams memlimit raw).p < 2 ^ 32 := by omega
  obtain ⟨dk, hdk⟩ : ∃ d, P.scryptKDF passwd salt
      (2 ^ (pickparams memlimit raw).logN % 2 ^ 64)
      (pickparams memlimit raw).r (pickparams memlimit raw).p 64 = d :=
    ⟨_, rfl⟩
  obtain ⟨h48, hh48⟩ : ∃ h, hdr48 ((pickparams memlimit raw).logN % 256)
      (pickparams memlimit raw).r (pickparams memlimit raw).p salt = h :=
    ⟨_, rfl⟩
  obtain ⟨c16, hc16⟩ : ∃ c, (P.sha256 h48).take 16 = c := ⟨_, rfl⟩
  obtain ⟨sigh, hsigh⟩ : ∃ s, (P.hmac (dk.drop 32) (h48 ++ c16)).take 32 = s :=
    ⟨_, rfl⟩
  obtain ⟨ct, hct⟩ : ∃ c, aesctr_stream (P.keystream (dk.take 32)) 0 inbuf = c :=
    ⟨_, rfl⟩
  obtain ⟨tag, htag⟩ : ∃ t,
      (P.hmac (dk.drop 32) ((h48 ++ c16 ++ sigh) ++ ct)).take 32 = t :=
    ⟨_, rfl⟩
  have henc : scryptenc_buf P inbuf passwd memlimit raw salt =
      ((h48 ++ c16 ++ sigh) ++ ct) ++ tag := by
    simp only [scryptenc_buf, scryptenc_setup, hdk, hh48, hc16, hsigh, hct]
    rw [htag]
  have hl48 : h48.length = 48 := by
    rw [← hh48]
    exact hdr48_length hsalt _ _ _
  have hlc16 : c16.length = 16 := by
    rw [← hc16]
    simp [List.length_take, hsha]
  have hlsigh : sigh.length = 32 := by
    rw [← hsigh]
    simp [List.length_take, hhmac]
  have hltag : tag.length = 32 := by
    rw [← htag]
    simp [List.length_take, hhmac]
  have hlct : ct.length = inbuf.length := by
    rw [← hct]
    exact aesctr_stream_length _ _ _
  have hl96 : (h48 ++ c16 ++ sigh).length = 96 := by
    simp [hl48, hlc16, hlsigh]
  have hlC : (((h48 ++ c16 ++ sigh) ++ ct) ++ tag).length =
      128 + inbuf.length := by
    simp [hl96, hlct, hltag]
    omega
  have hflat : ((h48 ++ c16 ++ sigh) ++ ct) ++ tag =
      h48 ++ (c16 ++ (sigh ++ (ct ++ tag))) := by
    simp [List.append_assoc]
  have hflat2 : ((h48 ++ c16 ++ sigh) ++ ct) ++ tag =
      (h48 ++ c16) ++ (sigh ++ (ct ++ tag)) := by
    simp [List.append_assoc]
  have hl64 : (h48 ++ c16).length = 64 := by simp [hl48, hlc16]
  have ht6 : (((h48 ++ c16 ++ sigh) ++ ct) ++ tag).take 6 = magic := by
    rw [hflat, ← hh48]
    exact hdr48_take6 _ _ _ _
  have hg6 : (((h48 ++ c16 ++ sigh) ++ ct) ++ tag).getD 6 0 = 0 := by
    rw [hflat, ← hh48, hdr48_getD6]
  have hg7 : (((h48 ++ c16 ++ sigh) ++ ct) ++ tag).getD 7 0 =
      (pickparams memlimit raw).logN := by
    rw [hflat, ← hh48, hdr48_getD7, hlgmod]
  have hgr : be32dec (((((h48 ++ c16 ++ sigh) ++ ct) ++ tag).drop 8).take 4) =
      (pickparams memlimit raw).r := by
    rw [hflat, ← hh48, hdr48_parse_r]
    exact be32dec_be32enc hrlt
  have hgp : be32dec (((((h48 ++ c16 ++ sigh) ++ ct) ++ tag).drop 12).take 4) =
      (pickparams memlimit raw).p := by
    rw [hflat, ← hh48, hdr48_parse_p]
    exact be32dec_be32enc hplt
  have hgs : ((((h48 ++ c16 ++ sigh) ++ ct) ++ tag).drop 16).take 32 = salt := by
    rw [hflat, ← hh48]
    exact hdr48_parse_salt _ _ _ _ hsalt
  have ht48 : (((h48 ++ c16 ++ sigh) ++ ct) ++ tag).take 48 = h48 := by
    rw [hflat, ← hh48]
    exact hdr48_take48 _ _ _ _ hsalt
  have ht16 : ((((h48 ++ c16 ++ sigh) ++ ct) ++ tag).drop 48).take 16 = c16 := by
    rw [hflat, ← hh48, hdr48_drop48 _ _ _ _ hsalt]
    exact List.take_left' hlc16
  have ht64 : (((h48 ++ c16 ++ sigh) ++ ct) ++ tag).take 64 = h48 ++ c16 := by
    rw [hflat2]
    exact List.take_left' hl64
  have hd64 : ((((h48 ++ c16 ++ sigh) ++ ct) ++ tag).drop 64).take 32 = sigh := by
    rw [hflat2, List.drop_left' hl64]
    exact List.take_left' hlsigh
  have hd96 : (((h48 ++ c16 ++ sigh) ++ ct) ++ tag).drop 96 = ct ++ tag := by
    rw [List.append_assoc (h48 ++ c16 ++ sigh) ct tag]
    exact List.drop_left' hl96
  have htk : ((((h48 ++ c16 ++ sigh) ++ ct) ++ tag).drop 96).take
      ((((h48 ++ c16 ++ sigh) ++ ct) ++ tag).length - 128) = ct := by
    rw [hd96, hlC]
    have : 128 + inbuf.length - 128 = ct.length := by omega
    rw [this]
    exact List.take_left' rfl
  have httop : (((h48 ++ c16 ++ sigh) ++ ct) ++ tag).take
      ((((h48 ++ c16 ++ sigh) ++ ct) ++ tag).length - 32) =
      (h48 ++ c16 ++ sigh) ++ ct := by
    rw [hlC]
    apply List.take_left'
    simp [hl96, hlct]
    omega
  have hdtag : ((((h48 ++ c16 ++ sigh) ++ ct) ++ tag).drop
      ((((h48 ++ c16 ++ sigh) ++ ct) ++ tag).length - 32)).take 32 = tag := by
    rw [hlC]
    have hpre : ((h48 ++ c16 ++ sigh) ++ ct).length = 128 + inbuf.length - 32 := by
      simp [hl96, hlct]
      omega
    rw [List.drop_left' hpre, ← hltag]
    exact List.take_length tag
  have hsetup : scryptdec_setup P (((h48 ++ c16 ++ sigh) ++ ct) ++ tag) passwd
      memlimit raw = ⟨0, dk, true⟩ := by
    simp only [scryptdec_setup, hg7, hgr, hgp, hgs, ht48, ht16, ht64, hd64,
      hc16, hdk, hsigh]
    rw [if_neg (fun hno => hno rfl)]
    rw [if_neg (fun hno => hno hchk0)]
    rw [if_neg (fun hno => hno rfl)]
  have hout : aesctr_stream (P.keystream (dk.take 32)) 0 ct = inbuf := by
    rw [← hct]
    exact aesctr_stream_invol _ _ _
  rw [henc]
  simp only [scryptdec_buf, hsetup]
  rw [if_neg ?hno1, if_neg ?hno2, if_neg ?hno3, if_neg ?hno4]
  case hno1 =>
    rintro (h1 | h2)
    · rw [hlC] at h1
      omega
    · exact h2 ht6
  case hno2 =>
    intro h2
    exact h2 hg6
  case hno3 =>
    rw [hlC]
    omega
  case hno4 =>
    intro h4
    exact h4 rfl
  rw [htk, hout]
  rw [if_neg ?hno5]
  case hno5 =>
    intro h5
    apply h5
    rw [httop, hdtag, htag]
  rw [hlC]
  have : 128 + inbuf.length - 128 = inbuf.length := by omega
  rw [this]

set_option maxRecDepth 100000 in
/-- Witness for C1 (amended) at a concrete plaintext, password, salt and
budget pair. -/
theorem C1_encrypt_decrypt_roundtrip_witness :
    ((List.replicate 32 0).length = 32 ∧ 0 < (Dbl.mk 40000 1).den ∧
     2 ^ 20 ≤ 1048576 ∧ (Dbl.mk 40000 1).blt (Dbl.ofNat 32768) = false ∧
     (∀ m, (cPrims.sha256 m).length = 32) ∧
     (∀ k m, (cPrims.hmac k m).length = 32)) ∧
    scryptdec_buf cPrims
      (scryptenc_buf cPrims [5, 6, 7] [1] 1048576 ⟨40000, 1⟩
        (List.replicate 32 0)) [1] 1048576 ⟨40000, 1⟩ =
      ⟨0, [5, 6, 7], some 3, true, true⟩ :=
  ⟨⟨by decide, by decide, by decide, by decide,
    fun m => by simp [cPrims, cSha256],
    fun k m => by simp [cPrims, cHmac]⟩, by
    have h := C1_encrypt_decrypt_roundtrip cPrims [5, 6, 7] [1]
      (List.replicate 32 0) 1048576 ⟨40000, 1⟩ (by decide) (by decide)
      (by decide) (by decide) (fun m => by simp [cPrims, cSha256])
      (fun k m => by simp [cPrims, cHmac])
    simpa using h⟩

/-- C8: the streaming variants are byte-equivalent to the buffer variants.
Encrypt: for every division of the plaintext stream into (nonempty) read
chunks, `scryptenc_file` emits exactly the container `scryptenc_buf`
produces for the concatenated plaintext with the same password, salt and
budgets.  Decrypt: for every container of at least 128 bytes and every
division of its post-header bytes into (nonempty) read chunks,
`scryptdec_file` returns the same code and emits exactly the bytes
`scryptdec_buf` writes into its output buffer. -/
theorem C8_stream_buffer_equivalence :
    (∀ (P : Prims) (chunks : List (List ℕ)) (passwd salt : List ℕ)
        (memlimit : ℕ) (raw : Dbl), (∀ c ∈ chunks, c ≠ []) →
      scryptenc_file P chunks passwd memlimit raw salt =
        scryptenc_buf P chunks.flatten passwd memlimit raw salt) ∧
    (∀ (P : Prims) (container : List ℕ) (chunks : List (List ℕ))
        (passwd : List ℕ) (memlimit : ℕ) (raw : Dbl),
      128 ≤ container.length → (∀ c ∈ chunks, c ≠ []) →
      chunks.flatten = container.drop 96 →
      (scryptdec_file P container chunks passwd memlimit raw).rc =
        (scryptdec_buf P container passwd memlimit raw).rc ∧
      (scryptdec_file P container chunks passwd memlimit raw).written =
        (scryptdec_buf P container passwd memlimit raw).out) := by
  constructor
  · intro P chunks passwd salt memlimit raw hne
    simp only [scryptenc_file, scryptenc_buf]
    rw [encChunks_join _ _ hne]
  · intro P container chunks passwd memlimit raw hlen hne hjoin
    by_cases hm : container.take 6 = magic
    case neg =>
      have hfile : scryptdec_file P container chunks passwd memlimit raw =
          ⟨7, [], false, false⟩ := by
        simp only [scryptdec_file]
        rw [if_neg (by omega), if_pos hm]
      have hbuf : scryptdec_buf P container passwd memlimit raw =
          ⟨7, [], none, false, false⟩ := by
        simp only [scryptdec_buf]
        rw [if_pos (Or.inr hm)]
      rw [hfile, hbuf]
      exact ⟨rfl, rfl⟩
    case pos =>
    by_cases hv : container.getD 6 0 = 0
    case neg =>
      have hfile : scryptdec_file P container chunks passwd memlimit raw =
          ⟨8, [], false, false⟩ := by
        simp only [scryptdec_file]
        rw [if_neg (by omega), if_neg (fun hno => hno hm), if_pos hv]
      have hbuf : scryptdec_buf P container passwd memlimit raw =
          ⟨8, [], none, false, false⟩ := by
        simp only [scryptdec_buf]
        rw [if_neg (by rintro (h1 | h2); omega; exact h2 hm), if_pos hv]
      rw [hfile, hbuf]
      exact ⟨rfl, rfl⟩
    case pos =>
    have hsetup96 := scryptdec_setup_take96 P container passwd memlimit raw
    by_cases hrc : (scryptdec_setup P container passwd memlimit raw).rc = 0
    case neg =>
      have hfile : scryptdec_file P container chunks passwd memlimit raw =
          ⟨(scryptdec_setup P container passwd memlimit raw).rc, [], false,
           (scryptdec_setup P container passwd memlimit raw).scryptCalled⟩ := by
        simp only [scryptdec_file, hsetup96]
        rw [if_neg (by omega), if_neg (fun hno => hno hm),
          if_neg (fun hno => hno hv), if_neg (by omega), if_pos hrc]
      have hbuf : scryptdec_buf P container passwd memlimit raw =
          ⟨(scryptdec_setup P container passwd memlimit raw).rc, [], none,
           false,
           (scryptdec_setup P container passwd memlimit raw).scryptCalled⟩ := by
        simp only [scryptdec_buf]
        rw [if_neg (by rintro (h1 | h2); omega; exact h2 hm),
          if_neg (fun hno => hno hv), if_neg (by omega), if_pos hrc]
      rw [hfile, hbuf]
      exact ⟨rfl, rfl⟩
    case pos =>
    obtain ⟨hE, hO, hL⟩ := decChunks_spec
      (P.keystream ((scryptdec_setup P container passwd memlimit raw).dk.take 32))
      chunks [] [] [] hne (by simp) (by rfl)
    rw [hjoin] at hE hL
    simp only [List.nil_append, List.length_nil, Nat.zero_add] at hE hL
    have hflatlen : (container.drop 96).length = container.length - 96 :=
      List.length_drop _ _
    have hL32 : (decChunks
        (P.keystream ((scryptdec_setup P container passwd memlimit raw).dk.take 32))
        chunks [] [] []).1.length = 32 := by
      rw [hL, hflatlen]
      omega
    have hlen22 : (decChunks
        (P.keystream ((scryptdec_setup P container passwd memlimit raw).dk.take 32))
        chunks [] [] []).2.2.length = container.length - 128 := by
      have := congrArg List.length hE
      simp only [List.length_append, hflatlen, hL32] at this
      omega
    have h22 : (decChunks
        (P.keystream ((scryptdec_setup P container passwd memlimit raw).dk.take 32))
        chunks [] [] []).2.2 = (container.drop 96).take (container.length - 128) := by
      have h1 := congrArg (List.take ((decChunks
        (P.keystream ((scryptdec_setup P container passwd memlimit raw).dk.take 32))
        chunks [] [] []).2.2.length)) hE
      rw [List.take_left' rfl] at h1
      rw [hlen22] at h1
      exact h1
    have h1eq : (decChunks
        (P.keystream ((scryptdec_setup P container passwd memlimit raw).dk.take 32))
        chunks [] [] []).1 = container.drop (container.length - 32) := by
      have h1 := congrArg (List.drop ((decChunks
        (P.keystream ((scryptdec_setup P container passwd memlimit raw).dk.take 32))
        chunks [] [] []).2.2.length)) hE
      rw [List.drop_left' rfl] at h1
      rw [hlen22] at h1
      rw [h1, List.drop_drop]
      have h2 : 96 + (container.length - 128) = container.length - 32 := by
        omega
      rw [h2]
    have hmsg : container.take 96 ++ (decChunks
        (P.keystream ((scryptdec_setup P container passwd memlimit raw).dk.take 32))
        chunks [] [] []).2.2 = container.take (container.length - 32) := by
      rw [h22, ← List.take_add]
      have h2 : 96 + (container.length - 128) = container.length - 32 := by
        omega
      rw [h2]
    have htag1 : (decChunks
        (P.keystream ((scryptdec_setup P container passwd memlimit raw).dk.take 32))
        chunks [] [] []).1.take 32 =
        (container.drop (container.length - 32)).take 32 := by
      rw [h1eq]
    have hwr : (decChunks
        (P.keystream ((scryptdec_setup P container passwd memlimit raw).dk.take 32))
        chunks [] [] []).2.1 =
        aesctr_stream
          (P.keystream ((scryptdec_setup P container passwd memlimit raw).dk.take 32))
          0 ((container.drop 96).take (container.length - 128)) := by
      rw [hO, h22]
    have hfile : scryptdec_file P container chunks passwd memlimit raw =
        if (P.hmac ((scryptdec_setup P container passwd memlimit raw).dk.drop 32)
            (container.take (container.length - 32))).take 32 ≠
            (container.drop (container.length - 32)).take 32 then
          ⟨7, aesctr_stream
            (P.keystream ((scryptdec_setup P container passwd memlimit raw).dk.take 32))
            0 ((container.drop 96).take (container.length - 128)), false, true⟩
        else
          ⟨0, aesctr_stream
            (P.keystream ((scryptdec_setup P container passwd memlimit raw).dk.take 32))
            0 ((container.drop 96).take (container.length - 128)), true, true⟩ := by
      simp only [scryptdec_file, hsetup96]
      rw [if_neg (by omega), if_neg (fun hno => hno hm),
        if_neg (fun hno => hno hv), if_neg (by omega),
        if_neg (fun hno => hno hrc), hmsg, htag1, hwr,
        if_neg (by rw [hL32]; omega)]
    have hbuf : scryptdec_buf P container passwd memlimit raw =
        if (P.hmac ((scryptdec_setup P container passwd memlimit raw).dk.drop 32)
            (container.take (container.length - 32))).take 32 ≠
            (container.drop (container.length - 32)).take 32 then
          ⟨7, aesctr_stream
            (P.keystream ((scryptdec_setup P container passwd memlimit raw).dk.take 32))
            0 ((container.drop 96).take (container.length - 128)),
           some (container.length - 128), false, true⟩
        else
          ⟨0, aesctr_stream
            (P.keystream ((scryptdec_setup P container passwd memlimit raw).dk.take 32))
            0 ((container.drop 96).take (container.length - 128)),
           some (container.length - 128), true, true⟩ := by
      simp only [scryptdec_buf]
      rw [if_neg (by rintro (h1 | h2); omega; exact h2 hm),
        if_neg (fun hno => hno hv), if_neg (by omega),
        if_neg (fun hno => hno hrc)]
    rw [hfile, hbuf]
    by_cases htg : (P.hmac
        ((scryptdec_setup P container passwd memlimit raw).dk.drop 32)
        (container.take (container.length - 32))).take 32 ≠
        (container.drop (container.length - 32)).take 32
    · rw [if_pos htg, if_pos htg]
      exact ⟨rfl, rfl⟩
    · rw [if_neg htg, if_neg htg]
      exact ⟨rfl, rfl⟩

set_option maxRecDepth 400000 in
/-- Witness for C8: a two-chunk plaintext split for the encrypt half, and
the container `tagbox` with its payload read in one chunk for the decrypt
half. -/
theorem C8_stream_buffer_equivalence_witness :
    ((∀ c ∈ [[5], [6, 7]], c ≠ ([] : List ℕ)) ∧ 128 ≤ tagbox.length ∧
     (∀ c ∈ [tagbox.drop 96], c ≠ ([] : List ℕ)) ∧
     [tagbox.drop 96].flatten = tagbox.drop 96) ∧
    (scryptenc_file cPrims [[5], [6, 7]] [1] 1048576 ⟨40000, 1⟩
        (List.replicate 32 0) =
      scryptenc_buf cPrims [[5], [6, 7]].flatten [1] 1048576 ⟨40000, 1⟩
        (List.replicate 32 0)) ∧
    ((scryptdec_file cPrims tagbox [tagbox.drop 96] [1] 1048576
        ⟨40000, 1⟩).rc =
      (scryptdec_buf cPrims tagbox [1] 1048576 ⟨40000, 1⟩).rc ∧
     (scryptdec_file cPrims tagbox [tagbox.drop 96] [1] 1048576
        ⟨40000, 1⟩).written =
      (scryptdec_buf cPrims tagbox [1] 1048576 ⟨40000, 1⟩).out) :=
  ⟨⟨by decide, by decide, by decide, by decide⟩,
   C8_stream_buffer_equivalence.1 cPrims [[5], [6, 7]] [1]
     (List.replicate 32 0) 1048576 ⟨40000, 1⟩ (by decide),
   C8_stream_buffer_equivalence.2 cPrims tagbox [tagbox.drop 96] [1] 1048576
     ⟨40000, 1⟩ (by decide) (by decide) (by decide)⟩

end Scrypt
